import Mathlib

/-! # device-scheduler: the `schedule` package

A shallow embedding of `src/schedule/{timeoffset,abs,weekly,schedule}.go`.

Conventions of the embedding.

* Go's `int`/`int64` values are `Int`; the two places where the package does
  arithmetic on decoded, unvalidated numbers (`Time += oneWeek`,
  `Time -= oneWeek`, `time.Second * ReportRate`) wrap with `wrapInt64`.
* A Go call either returns or stops with a run-time panic or an `error`.  Such
  calls return `Except Failure _`; `Failure.indexOutOfRange` is the run-time
  panic of a slice access outside `0 ≤ i < len`.
* `time.Time` is an instant (nanoseconds since the Unix epoch) together with a
  `Location`.  Locations are restricted to fixed offsets from UTC.  The
  calendar triple `(Year, Month, Day)` of the standard library is represented
  by the number of the civil day (days since 1970-01-01 in the location), so
  `time.Date(y, m, d, ...)` takes that day number.  `time.Unix` wraps as the
  standard library does; the other range limits of the standard library are
  not modelled.
* A nil slice and an empty slice are both `[]`.
-/

namespace DeviceScheduler

/-! ## Standard-library layer -/

/-- The ways a call can stop without a result. -/
inductive Failure where
  /-- an `error` wrapping `ErrInvalidInput` -/
  | ErrInvalidInput
  /-- an `error` returned by the msgpack decoder -/
  | decodeError
  /-- run-time panic: index out of range -/
  | indexOutOfRange
  deriving DecidableEq, Repr

instance {ε α : Type} [DecidableEq ε] [DecidableEq α] : DecidableEq (Except ε α)
  | .ok a, .ok b => if h : a = b then isTrue (by rw [h]) else isFalse (by intro e; cases e; exact h rfl)
  | .error a, .error b =>
    if h : a = b then isTrue (by rw [h]) else isFalse (by intro e; cases e; exact h rfl)
  | .ok _, .error _ => isFalse (by intro e; cases e)
  | .error _, .ok _ => isFalse (by intro e; cases e)

/-- Two's-complement wrap-around of 64-bit signed arithmetic. -/
def wrapInt64 (x : Int) : Int :=
  (x + 9223372036854775808) % 18446744073709551616 - 9223372036854775808

/-- The Go expression `l[i]`: panics unless `0 ≤ i < len(l)`. -/
def sliceAt {α : Type} (l : List α) (i : Int) : Except Failure α :=
  if i < 0 then .error .indexOutOfRange
  else match l.get? i.toNat with
    | some a => .ok a
    | none => .error .indexOutOfRange

/-- The call `sort.Slice(l, less)`, as the insertion sort the standard library
runs on short slices: every element is moved left past the elements it is
`less` than.  The order among elements with equal keys that Go produces on
long slices is unspecified; here they keep their input order. -/
def sortSlice {α : Type} (less : α → α → Bool) (l : List α) : List α :=
  l.insertionSort (fun a b => less b a = false)

/-- A `*time.Location` with a fixed offset: seconds east of UTC. -/
structure Location where
  offset : Int
  deriving DecidableEq, Repr

/-- The location `time.UTC`. -/
def UTC : Location := ⟨0⟩

/-- A `time.Time`: an instant and the location it is read in. -/
structure Time where
  /-- nanoseconds since 1970-01-01T00:00:00Z -/
  ns : Int
  loc : Location
  deriving DecidableEq, Repr

namespace Time

/-- The zero value `time.Time{}`: 0001-01-01T00:00:00Z. -/
def zero : Time := ⟨-62135596800000000000, UTC⟩

/-- The call `time.Unix(sec, nsec)` for `0 ≤ nsec < 10^9`.  The standard
library stores `sec + 62135596800`, the seconds since 0001-01-01T00:00:00Z, in
an `int64`: for `sec` above `MaxInt64 - 62135596800` the sum wraps around and
the time stored lies before the zero time.  The location it carries is
replaced by `In` at its only use. -/
def ofUnix (sec nsec : Int) : Time :=
  ⟨(wrapInt64 (sec + 62135596800) - 62135596800) * 1000000000 + nsec, UTC⟩

/-- The method `t.In(loc)`. -/
def In (t : Time) (loc : Location) : Time := ⟨t.ns, loc⟩

/-- The method `t.Unix()`: whole seconds since the epoch, rounded down. -/
def Unix (t : Time) : Int := t.ns / 1000000000

/-- The method `t.Nanosecond()`. -/
def Nanosecond (t : Time) : Int := t.ns % 1000000000

/-- Seconds since 1970-01-01T00:00:00 on the clock of the time's location. -/
def localSec (t : Time) : Int := t.Unix + t.loc.offset

/-- The civil day `(t.Year(), t.Month(), t.Day())` as a day number. -/
def civilDay (t : Time) : Int := t.localSec / 86400

/-- The method `t.Weekday()`: Sunday = 0, ..., Saturday = 6 (1970-01-01 was a
Thursday). -/
def Weekday (t : Time) : Int := (t.civilDay + 4) % 7

/-- The method `t.Hour()`. -/
def Hour (t : Time) : Int := t.localSec % 86400 / 3600

/-- The method `t.Minute()`. -/
def Minute (t : Time) : Int := t.localSec % 3600 / 60

/-- The method `t.Second()`. -/
def Second (t : Time) : Int := t.localSec % 60

/-- The method `t.Before(u)`. -/
def Before (t u : Time) : Bool := decide (t.ns < u.ns)

/-- The method `t.After(u)`. -/
def After (t u : Time) : Bool := decide (u.ns < t.ns)

/-- The method `t.IsZero()`. -/
def IsZero (t : Time) : Bool := decide (t.ns = zero.ns)

/-- The call `t.AddDate(0, 0, days)`: same clock reading, `days` civil days
later. -/
def AddDays (t : Time) (days : Int) : Time := ⟨t.ns + days * 86400 * 1000000000, t.loc⟩

/-- The call `time.Date(y, m, d, hour, min, sec, nsec, loc)` with `(y, m, d)`
given as a civil day number; out-of-range clock fields carry over into the
day, as in Go. -/
def Date (day hour min sec nsec : Int) (loc : Location) : Time :=
  ⟨(day * 86400 + hour * 3600 + min * 60 + sec - loc.offset) * 1000000000 + nsec, loc⟩

end Time

/-! ## timeoffset.go -/

/-- One week in seconds. -/
def oneWeek : Int := 7 * 24 * 60 * 60

/-- The type `weeklyOffset` (a Go `int`); its values are written as `Int`. -/
abbrev weeklyOffset := Int

def ToWeeklyOffset (when : Time) : Int :=
  when.Weekday * 24 * 3600 + when.Hour * 3600 + when.Minute * 60 + when.Second

def weeklyOffset.ToTime (w : Int) (relativeTo : Time) : Time :=
  let sun := relativeTo.AddDays (-1 * relativeTo.Weekday)
  Time.Date sun.civilDay 0 0 w 0 sun.loc

/-! ## abs.go -/

structure absEntry where
  Indexes : List Int
  UnixTime : Int
  macs : List String := []
  time : Time := Time.zero
  deriving DecidableEq, Repr

/-- The loop of `absEntry.Finalize`: the device names resolved so far are
consed in front of those of the remaining indexes, and `time` is assigned in
every iteration. -/
def absEntry.finalizeLoop (UnixTime : Int) (macs : List String) (tz : Location) :
    List Int → Time → Except Failure (List String × Time)
  | [], t => .ok ([], t)
  | idx :: rest, _ =>
    if idx < 0 ∨ idx > (macs.length : Int) then .error .ErrInvalidInput
    else match sliceAt macs idx with
      | .error f => .error f
      | .ok m =>
        match absEntry.finalizeLoop UnixTime macs tz rest ((Time.ofUnix UnixTime 0).In tz) with
        | .error f => .error f
        | .ok (ms, t) => .ok (m :: ms, t)

def absEntry.Finalize (entry : absEntry) (macs : List String) (tz : Location) :
    Except Failure absEntry :=
  match absEntry.finalizeLoop entry.UnixTime macs tz entry.Indexes entry.time with
  | .error f => .error f
  | .ok (ms, t) => .ok { entry with macs := ms, time := t }

abbrev absList := List absEntry

/-- The loop `for i := range list { err := list[i].Finalize(...) }`. -/
def absList.finalizeEach (macs : List String) (tz : Location) :
    List absEntry → Except Failure absList
  | [] => .ok []
  | e :: rest =>
    match e.Finalize macs tz with
    | .error f => .error f
    | .ok e1 =>
      match absList.finalizeEach macs tz rest with
      | .error f => .error f
      | .ok rest1 => .ok (e1 :: rest1)

def absList.Finalize (list : absList) (macs : List String) (tz : Location) :
    Except Failure absList :=
  absList.finalizeEach macs tz
    (sortSlice (fun a b => decide (a.UnixTime < b.UnixTime)) list)

/-- The loop of `absList.findIndex` from position `i` on, with the running
values of `at` and `index`. -/
def absList.findIndexLoop (when : Time) : List absEntry → Int → Time → Int → Int
  | [], _, _, index => index
  | entry :: rest, i, at_, index =>
    if entry.time.After at_ && !when.Before entry.time then
      absList.findIndexLoop when rest (i + 1) entry.time i
    else
      absList.findIndexLoop when rest (i + 1) at_ index

def absList.findIndex (list : absList) (when : Time) : Int :=
  absList.findIndexLoop when list 0 Time.zero (-1)

/-- Returns `(at, blocked, definitive)`. -/
def absList.Blocked (list : absList) (when : Time) :
    Except Failure (Time × List String × Bool) :=
  let index := list.findIndex when
  if index > -1 then
    match sliceAt list index with
    | .error f => .error f
    | .ok e => .ok (e.time, e.macs, decide (index < (list.length : Int) - 1))
  else .ok (Time.zero, [], false)

def absList.Until (list : absList) (when : Time) : Except Failure Time :=
  if list.length = 0 then .ok Time.zero
  else
    let index := list.findIndex when + 1
    if (list.length : Int) = index then .ok Time.zero
    else match sliceAt list index with
      | .error f => .error f
      | .ok e => .ok e.time

/-! ## weekly.go -/

structure weeklyEntry where
  Indexes : List Int
  Time : Int
  macs : List String := []
  deriving DecidableEq, Repr

def weeklyEntry.finalizeLoop (macs : List String) : List Int → Except Failure (List String)
  | [] => .ok []
  | idx :: rest =>
    if idx < 0 ∨ idx > (macs.length : Int) then .error .ErrInvalidInput
    else match sliceAt macs idx with
      | .error f => .error f
      | .ok m =>
        match weeklyEntry.finalizeLoop macs rest with
        | .error f => .error f
        | .ok ms => .ok (m :: ms)

def weeklyEntry.Finalize (entry : weeklyEntry) (macs : List String) :
    Except Failure weeklyEntry :=
  match weeklyEntry.finalizeLoop macs entry.Indexes with
  | .error f => .error f
  | .ok ms => .ok { entry with macs := ms }

abbrev weeklyList := List weeklyEntry

def weeklyList.finalizeEach (macs : List String) :
    List weeklyEntry → Except Failure weeklyList
  | [] => .ok []
  | e :: rest =>
    match e.Finalize macs with
    | .error f => .error f
    | .ok e1 =>
      match weeklyList.finalizeEach macs rest with
      | .error f => .error f
      | .ok rest1 => .ok (e1 :: rest1)

/-- Returns the new value of `*p`. -/
def weeklyList.Finalize (p : weeklyList) (macs : List String) : Except Failure weeklyList :=
  match weeklyList.finalizeEach macs
      (sortSlice (fun a b => decide (a.Time < b.Time)) p) with
  | .error f => .error f
  | .ok list =>
    match list.head?, list.getLast? with
    | some first, some last =>
      let nextWeek := { first with Time := wrapInt64 (first.Time + oneWeek) }
      let priorWeek := { last with Time := wrapInt64 (last.Time - oneWeek) }
      .ok ((priorWeek :: list) ++ [nextWeek])
    | _, _ => .ok list

def weeklyList.findIndexLoop (offset : Int) : List weeklyEntry → Int → Int → Int
  | [], _, index => index
  | entry :: rest, i, index =>
    if entry.Time ≤ offset then weeklyList.findIndexLoop offset rest (i + 1) i
    else weeklyList.findIndexLoop offset rest (i + 1) index

def weeklyList.findIndex (list : weeklyList) (when : Time) : Int :=
  let offset := ToWeeklyOffset when
  weeklyList.findIndexLoop offset list 0 0

/-- Returns `(at, blocked)`. -/
def weeklyList.Blocked (list : weeklyList) (when : Time) :
    Except Failure (Time × List String) :=
  if list.length = 0 then .ok (Time.zero, [])
  else
    let index := list.findIndex when
    match sliceAt list index with
    | .error f => .error f
    | .ok e => .ok (weeklyOffset.ToTime e.Time when, e.macs)

/-- The `fmt.Printf` of the source reads `list[index]`, the element the
result is computed from. -/
def weeklyList.Until (list : weeklyList) (when : Time) : Except Failure Time :=
  if list.length = 0 then .ok Time.zero
  else
    let index := list.findIndex when + 1
    match sliceAt list index with
    | .error f => .error f
    | .ok e => .ok (weeklyOffset.ToTime e.Time when)

/-! ## schedule.go -/

structure schedule where
  TimeZone : String := ""
  ReportRate : Int := 0
  MACs : List String := []
  Absolute : absList := []
  Weekly : weeklyList := []
  tz : Location := UTC
  reportRate : Int := 0
  deriving DecidableEq, Repr

/-- The call `time.LoadLocation(name)`: the names `""` and `"UTC"` give UTC,
every other name is looked up in the time-zone database `tzdb`. -/
def LoadLocation (tzdb : String → Option Location) (name : String) : Option Location :=
  if name = "" ∨ name = "UTC" then some UTC else tzdb name

def schedule.Finalize (tzdb : String → Option Location) (s : schedule) :
    Except Failure schedule :=
  match LoadLocation tzdb s.TimeZone with
  | none => .error .ErrInvalidInput
  | some tz =>
    if s.ReportRate < 0 then .error .ErrInvalidInput
    else
      match s.Absolute.Finalize s.MACs tz with
      | .error f => .error f
      | .ok absolute =>
        match s.Weekly.Finalize s.MACs with
        | .error f => .error f
        | .ok weekly =>
          .ok { s with
            tz := tz
            reportRate := wrapInt64 (1000000000 * s.ReportRate)
            Absolute := absolute
            Weekly := weekly }

/-- The container `Schedule`; the codec handle and the mutex are left out. -/
structure Schedule where
  raw : schedule := {}
  deriving DecidableEq, Repr

def New : Schedule := {}

/-- The method `Decode`: returns the state afterwards and the `error` (or panic).
`decodeBytes` is the msgpack decoder. -/
def Schedule.Decode (decodeBytes : List UInt8 → Option schedule)
    (tzdb : String → Option Location) (s : Schedule) (input : List UInt8) :
    Schedule × Except Failure Unit :=
  match decodeBytes input with
  | none => (s, .error .decodeError)
  | some raw =>
    match raw.Finalize tzdb with
    | .error f => (s, .error f)
    | .ok raw1 => ({ s with raw := raw1 }, .ok ())

def Schedule.Blocked (s : Schedule) (when : Time) : Except Failure (List String) :=
  match s.raw.Absolute.Blocked when with
  | .error f => .error f
  | .ok (absAt, absBlocked, definitive) =>
    if definitive then .ok absBlocked
    else
      match s.raw.Weekly.Blocked when with
      | .error f => .error f
      | .ok (weeklyAt, weeklyBlocked) =>
        if weeklyAt.Before absAt then .ok absBlocked
        else .ok weeklyBlocked

def Schedule.Until (s : Schedule) (when : Time) : Except Failure Time :=
  match s.raw.Absolute.Until when with
  | .error f => .error f
  | .ok next =>
    if !next.IsZero then .ok next
    else s.raw.Weekly.Until when

/-! ## Test data of `TestSimple` -/

def simple : schedule :=
  { TimeZone := "UTC"
    ReportRate := 3600
    MACs := ["11:22:33:44:55:66", "22:33:44:55:66:aa", "33:44:55:66:aa:BB"]
    Absolute := [{ UnixTime := 864010, Indexes := [2, 1] }, { UnixTime := 864015, Indexes := [2] }]
    Weekly := [{ Time := 23, Indexes := [0] }, { Time := 24, Indexes := [1] }] }

/-- The instant `time.Unix(sec, 0).UTC()`. -/
def utc (sec : Int) : Time := (Time.ofUnix sec 0).In UTC

/-- Finalize `raw` (with an empty time-zone database) and ask `Blocked`. -/
def blockedOf (raw : schedule) (when : Time) : Except Failure (List String) :=
  match raw.Finalize (fun _ => none) with
  | .error f => .error f
  | .ok s => Schedule.Blocked ⟨s⟩ when

/-- Finalize `raw` (with an empty time-zone database) and ask `Until`. -/
def untilOf (raw : schedule) (when : Time) : Except Failure Time :=
  match raw.Finalize (fun _ => none) with
  | .error f => .error f
  | .ok s => Schedule.Until ⟨s⟩ when

/-- The schedule of `TestSimple` with a single absolute entry, later than the
two weekly occurrences of its week. -/
def lateAbsolute : schedule :=
  { simple with Absolute := [{ UnixTime := 864030, Indexes := [2] }] }

/-- Two absolute entries with the same instant. -/
def tiedAbsolute : schedule :=
  { TimeZone := "UTC"
    MACs := ["A", "B"]
    Absolute := [{ UnixTime := 10, Indexes := [0] }, { UnixTime := 10, Indexes := [1] }] }

/-- A candidate the load rejects: a negative report rate. -/
def negativeRate : schedule := { ReportRate := -1 }

/-- A weekly entry one second before the start of the week. -/
def negativeOffset : schedule :=
  { TimeZone := "UTC"
    MACs := ["A"]
    Weekly := [{ Time := -1, Indexes := [0] }] }

/-- A single weekly entry at offset 100000 (Monday 03:46:40) and no absolute
entry. -/
def mondayWeekly : schedule :=
  { TimeZone := "UTC"
    MACs := ["A"]
    Weekly := [{ Time := 100000, Indexes := [0] }] }

/-- An absolute entry before the zero time 0001-01-01T00:00:00Z, with the
weekly entries of `TestSimple`. -/
def ancientAbsolute : schedule :=
  { simple with Absolute := [{ UnixTime := -62135596801, Indexes := [2] }] }

/-- The schedule of `TestSimple` with its second absolute entry unblocking
every device (an empty index list). -/
def unblockAbsolute : schedule :=
  { simple with
    Absolute := [{ UnixTime := 864010, Indexes := [2, 1] }, { UnixTime := 864015, Indexes := [] }] }

/-- The schedule of `TestSimple` with both absolute entries at the same
instant. -/
def tiedWithWeekly : schedule :=
  { simple with
    Absolute := [{ UnixTime := 864010, Indexes := [2, 1] }, { UnixTime := 864010, Indexes := [2] }] }

/-- The schedule of `TestSimple` with its second absolute entry moved to
864100, after the two weekly occurrences of the week. -/
def gapAbsolute : schedule :=
  { simple with
    Absolute := [{ UnixTime := 864010, Indexes := [2, 1] }, { UnixTime := 864100, Indexes := [2] }] }

/-- The schedule of `TestSimple` with its second absolute entry at the
greatest `int64`, a second count that `time.Unix` cannot store: the sum with
62135596800 wraps around. -/
def wrappedAbsolute : schedule :=
  { simple with
    Absolute := [{ UnixTime := 864010, Indexes := [2, 1] },
      { UnixTime := 9223372036854775807, Indexes := [2] }] }

/-- The schedule `raw` as `Finalize` leaves it, with an empty time-zone
database; `raw` itself when `Finalize` fails. -/
def finalizedOf (raw : schedule) : schedule :=
  match raw.Finalize (fun _ => none) with
  | .ok s => s
  | .error _ => raw

/-- The instant `time.Unix(sec, 0)` read one hour east of UTC, as
`time.Unix(sec, 0).In(time.FixedZone("", 3600))`. -/
def plusOneHour (sec : Int) : Time := (Time.ofUnix sec 0).In ⟨3600⟩

/-- Finalize `raw` and ask `absList.Blocked` of its absolute list. -/
def absBlockedOf (raw : schedule) (when : Time) : Except Failure (Time × List String × Bool) :=
  (finalizedOf raw).Absolute.Blocked when

/-! ## Vocabulary of the specification -/

/-- The device names the index list `idxs` stands for in the table `macs`. -/
def resolve (macs : List String) (idxs : List Int) : List String :=
  idxs.map (fun idx => (macs.get? idx.toNat).getD "")

/-- The second `r` (Unix time) is an occurrence of the weekly offset `off`
in some week, weeks starting Sunday 00:00:00 UTC (1970-01-04T00:00:00Z is
second 259200). -/
def isOccurrence (off : Int) (r : Int) : Prop :=
  ∃ k : Int, r = 259200 + k * 604800 + off

/-- The second `r` is an occurrence of one of the weekly entries. -/
def weeklyOccurrence (weekly : weeklyList) (r : Int) : Prop :=
  ∃ e ∈ weekly, isOccurrence e.Time r

/-- The second `r` is a rule-transition instant: the instant of an absolute
entry or an occurrence of a weekly entry. -/
def ruleTransition (raw : schedule) (r : Int) : Prop :=
  (∃ e ∈ raw.Absolute, e.UnixTime = r) ∨ weeklyOccurrence raw.Weekly r

/-- All indexes of the list are positions of the table `macs`. -/
def indexesValid (macs : List String) (idxs : List Int) : Prop :=
  ∀ idx ∈ idxs, 0 ≤ idx ∧ idx < (macs.length : Int)

/-- What a successful `weeklyEntry.Finalize` leaves in the entry. -/
def weeklyEntry.resolved (macs : List String) (e : weeklyEntry) : weeklyEntry :=
  { e with macs := resolve macs e.Indexes }

/-- What a successful `absEntry.Finalize` leaves in the entry. -/
def absEntry.resolved (macs : List String) (tz : Location) (e : absEntry) : absEntry :=
  { e with
    macs := resolve macs e.Indexes
    time := if e.Indexes = [] then e.time else (Time.ofUnix e.UnixTime 0).In tz }

/-- The padding step of `weeklyList.Finalize`. -/
def weeklyList.padded (list : weeklyList) : weeklyList :=
  match list.head?, list.getLast? with
  | some first, some last =>
    ({ last with Time := wrapInt64 (last.Time - oneWeek) } :: list) ++
      [{ first with Time := wrapInt64 (first.Time + oneWeek) }]
  | _, _ => list

/-- The absolute list of a schedule finalized from `raw` in the zone `tz`. -/
def absList.finalized (raw : absList) (macs : List String) (tz : Location) : absList :=
  (sortSlice (fun a b => decide (a.UnixTime < b.UnixTime)) raw).map (absEntry.resolved macs tz)

/-- The weekly entries of `raw`, sorted and resolved, before the padding. -/
def weeklyList.resolvedSorted (raw : weeklyList) (macs : List String) : weeklyList :=
  (sortSlice (fun a b => decide (a.Time < b.Time)) raw).map (weeklyEntry.resolved macs)

/-- The list `r` has one device per index of `idxs`, element `i` being
`macs[idxs[i]]`. -/
def isResolutionOf (macs : List String) (idxs : List Int) (r : List String) : Prop :=
  r.length = idxs.length ∧
    ∀ (i : Nat) (hi : i < idxs.length), r.get? i = macs.get? (idxs.get ⟨i, hi⟩).toNat

/-! # Theorems -/

/-! ## Index lists -/

theorem sliceAt_ok_iff {α : Type} (l : List α) (i : Int) (a : α) :
    sliceAt l i = .ok a ↔ 0 ≤ i ∧ l.get? i.toNat = some a := by
  unfold sliceAt
  by_cases h : i < 0
  · simp [h]
  · simp only [h, if_false]
    cases hg : l.get? i.toNat with
    | none => simp
    | some b => simp; omega

theorem sliceAt_of_lt {α : Type} (l : List α) (i : Int) (h0 : 0 ≤ i) (h1 : i < l.length) :
    ∃ a, sliceAt l i = .ok a ∧ l.get? i.toNat = some a := by
  have hlt : i.toNat < l.length := by omega
  refine ⟨l.get ⟨i.toNat, hlt⟩, ?_, List.get?_eq_get hlt⟩
  rw [sliceAt_ok_iff]
  exact ⟨h0, List.get?_eq_get hlt⟩

theorem sliceAt_len {α : Type} (l : List α) :
    sliceAt l (l.length : Int) = .error .indexOutOfRange := by
  unfold sliceAt
  have h : ¬ ((l.length : Int) < 0) := by omega
  simp only [h, if_false, Int.toNat_ofNat]
  rw [List.get?_eq_none.mpr (le_refl _)]

theorem weekly_finalizeLoop_ok (macs : List String) (idxs : List Int) (ms : List String) :
    weeklyEntry.finalizeLoop macs idxs = .ok ms ↔
      (∀ idx ∈ idxs, 0 ≤ idx ∧ idx < macs.length) ∧ ms = resolve macs idxs := by
  induction idxs generalizing ms with
  | nil => simp [weeklyEntry.finalizeLoop, resolve]
  | cons idx rest ih =>
    unfold weeklyEntry.finalizeLoop
    by_cases hbad : idx < 0 ∨ idx > (macs.length : Int)
    · simp only [hbad, if_true]
      constructor
      · intro h; cases h
      · rintro ⟨h, _⟩
        have := h idx (List.mem_cons_self _ _)
        omega
    · simp only [hbad, if_false]
      by_cases hlen : idx = macs.length
      · subst hlen
        rw [sliceAt_len]
        constructor
        · intro h; cases h
        · rintro ⟨h, _⟩
          have := h _ (List.mem_cons_self _ _)
          omega
      · obtain ⟨m, hm, hget⟩ := sliceAt_of_lt macs idx (by omega) (by omega)
        rw [hm]
        have hmd : resolve macs (idx :: rest) = m :: resolve macs rest := by
          show (macs.get? idx.toNat).getD "" :: resolve macs rest = _
          rw [hget]; rfl
        cases hrec : weeklyEntry.finalizeLoop macs rest with
        | error f =>
          simp only
          constructor
          · intro h; cases h
          · rintro ⟨h, _⟩
            have h2 := (ih (resolve macs rest)).mpr
              ⟨fun i hi => h i (List.mem_cons_of_mem _ hi), rfl⟩
            rw [hrec] at h2; cases h2
        | ok ms1 =>
          simp only
          obtain ⟨h1, h2⟩ := (ih ms1).mp hrec
          constructor
          · intro h
            injection h with h
            subst h
            refine ⟨?_, ?_⟩
            · intro i hi
              rcases List.mem_cons.mp hi with h | h
              · subst h; omega
              · exact h1 i h
            · rw [hmd, h2]
          · rintro ⟨_, h⟩
            rw [h, h2, hmd]

theorem abs_finalizeLoop_ok (U : Int) (macs : List String) (tz : Location) (idxs : List Int)
    (t0 : Time) (ms : List String) (t : Time) :
    absEntry.finalizeLoop U macs tz idxs t0 = .ok (ms, t) ↔
      indexesValid macs idxs ∧ ms = resolve macs idxs ∧
        t = (if idxs = [] then t0 else (Time.ofUnix U 0).In tz) := by
  induction idxs generalizing ms t t0 with
  | nil =>
    simp [absEntry.finalizeLoop, resolve, indexesValid]
    intro _
    exact eq_comm
  | cons idx rest ih =>
    unfold absEntry.finalizeLoop
    by_cases hbad : idx < 0 ∨ idx > (macs.length : Int)
    · simp only [hbad, if_true]
      constructor
      · intro h; cases h
      · rintro ⟨h, _⟩
        have := h idx (List.mem_cons_self _ _)
        omega
    · simp only [hbad, if_false]
      by_cases hlen : idx = macs.length
      · subst hlen
        rw [sliceAt_len]
        constructor
        · intro h; cases h
        · rintro ⟨h, _⟩
          have := h _ (List.mem_cons_self _ _)
          omega
      · obtain ⟨m, hm, hget⟩ := sliceAt_of_lt macs idx (by omega) (by omega)
        rw [hm]
        have hmd : resolve macs (idx :: rest) = m :: resolve macs rest := by
          show (macs.get? idx.toNat).getD "" :: resolve macs rest = _
          rw [hget]; rfl
        have hne : (idx :: rest) ≠ [] := by simp
        simp only [hne, if_false]
        have hsame : (if rest = [] then (Time.ofUnix U 0).In tz else (Time.ofUnix U 0).In tz)
            = (Time.ofUnix U 0).In tz := by split <;> rfl
        cases hrec : absEntry.finalizeLoop U macs tz rest ((Time.ofUnix U 0).In tz) with
        | error f =>
          simp only
          constructor
          · intro h; cases h
          · rintro ⟨h, _⟩
            have h2 := (ih ((Time.ofUnix U 0).In tz) (resolve macs rest) _).mpr
              ⟨fun i hi => h i (List.mem_cons_of_mem _ hi), rfl, rfl⟩
            rw [hrec] at h2; cases h2
        | ok r =>
          obtain ⟨ms1, t1⟩ := r
          simp only
          obtain ⟨h1, h2, h3⟩ := (ih _ ms1 t1).mp hrec
          rw [hsame] at h3
          constructor
          · intro h
            injection h with h
            injection h with ha hb
            subst ha hb
            refine ⟨?_, ?_, h3⟩
            · intro i hi
              rcases List.mem_cons.mp hi with h | h
              · subst h; omega
              · exact h1 i h
            · rw [hmd, h2]
          · rintro ⟨_, h, ht⟩
            rw [h, h2, hmd, ht, h3]

theorem weeklyEntry_Finalize_ok (macs : List String) (e e1 : weeklyEntry) :
    e.Finalize macs = .ok e1 ↔ indexesValid macs e.Indexes ∧ e1 = e.resolved macs := by
  unfold weeklyEntry.Finalize
  cases h : weeklyEntry.finalizeLoop macs e.Indexes with
  | error f =>
    simp only
    constructor
    · intro h1; cases h1
    · rintro ⟨h1, _⟩
      have := (weekly_finalizeLoop_ok macs e.Indexes _).mpr ⟨h1, rfl⟩
      rw [h] at this; cases this
  | ok ms =>
    simp only
    obtain ⟨h1, h2⟩ := (weekly_finalizeLoop_ok macs e.Indexes ms).mp h
    subst h2
    constructor
    · intro h3; injection h3 with h3; exact ⟨h1, h3.symm⟩
    · rintro ⟨_, h3⟩; rw [h3]; rfl

theorem absEntry_Finalize_ok (macs : List String) (tz : Location) (e e1 : absEntry) :
    e.Finalize macs tz = .ok e1 ↔ indexesValid macs e.Indexes ∧ e1 = e.resolved macs tz := by
  unfold absEntry.Finalize
  cases h : absEntry.finalizeLoop e.UnixTime macs tz e.Indexes e.time with
  | error f =>
    simp only
    constructor
    · intro h1; cases h1
    · rintro ⟨h1, _⟩
      have := (abs_finalizeLoop_ok e.UnixTime macs tz e.Indexes e.time _ _).mpr ⟨h1, rfl, rfl⟩
      rw [h] at this; cases this
  | ok r =>
    obtain ⟨ms, t⟩ := r
    simp only
    obtain ⟨h1, h2, h3⟩ := (abs_finalizeLoop_ok _ macs tz e.Indexes e.time ms t).mp h
    subst h2 h3
    constructor
    · intro h3; injection h3 with h3; exact ⟨h1, h3.symm⟩
    · rintro ⟨_, h3⟩; rw [h3]; rfl

theorem weekly_finalizeEach_ok (macs : List String) (l L : weeklyList) :
    weeklyList.finalizeEach macs l = .ok L ↔
      (∀ e ∈ l, indexesValid macs e.Indexes) ∧ L = l.map (weeklyEntry.resolved macs) := by
  induction l generalizing L with
  | nil => simp [weeklyList.finalizeEach]
  | cons e rest ih =>
    unfold weeklyList.finalizeEach
    cases he : e.Finalize macs with
    | error f =>
      simp only
      constructor
      · intro h; cases h
      · rintro ⟨h, _⟩
        have := (weeklyEntry_Finalize_ok macs e _).mpr ⟨h e (List.mem_cons_self _ _), rfl⟩
        rw [he] at this; cases this
    | ok e1 =>
      obtain ⟨hv, he1⟩ := (weeklyEntry_Finalize_ok macs e e1).mp he
      simp only
      cases hr : weeklyList.finalizeEach macs rest with
      | error f =>
        simp only
        constructor
        · intro h; cases h
        · rintro ⟨h, _⟩
          have := (ih _).mpr ⟨fun x hx => h x (List.mem_cons_of_mem _ hx), rfl⟩
          rw [hr] at this; cases this
      | ok rest1 =>
        obtain ⟨hv1, hr1⟩ := (ih rest1).mp hr
        simp only
        constructor
        · intro h
          injection h with h
          refine ⟨?_, ?_⟩
          · intro x hx
            rcases List.mem_cons.mp hx with h | h
            · subst h; exact hv
            · exact hv1 x h
          · rw [← h, he1, hr1]; rfl
        · rintro ⟨_, h⟩
          rw [h, he1, hr1]; rfl

theorem abs_finalizeEach_ok (macs : List String) (tz : Location) (l L : absList) :
    absList.finalizeEach macs tz l = .ok L ↔
      (∀ e ∈ l, indexesValid macs e.Indexes) ∧ L = l.map (absEntry.resolved macs tz) := by
  induction l generalizing L with
  | nil => simp [absList.finalizeEach]
  | cons e rest ih =>
    unfold absList.finalizeEach
    cases he : e.Finalize macs tz with
    | error f =>
      simp only
      constructor
      · intro h; cases h
      · rintro ⟨h, _⟩
        have := (absEntry_Finalize_ok macs tz e _).mpr ⟨h e (List.mem_cons_self _ _), rfl⟩
        rw [he] at this; cases this
    | ok e1 =>
      obtain ⟨hv, he1⟩ := (absEntry_Finalize_ok macs tz e e1).mp he
      simp only
      cases hr : absList.finalizeEach macs tz rest with
      | error f =>
        simp only
        constructor
        · intro h; cases h
        · rintro ⟨h, _⟩
          have := (ih _).mpr ⟨fun x hx => h x (List.mem_cons_of_mem _ hx), rfl⟩
          rw [hr] at this; cases this
      | ok rest1 =>
        obtain ⟨hv1, hr1⟩ := (ih rest1).mp hr
        simp only
        constructor
        · intro h
          injection h with h
          refine ⟨?_, ?_⟩
          · intro x hx
            rcases List.mem_cons.mp hx with h | h
            · subst h; exact hv
            · exact hv1 x h
          · rw [← h, he1, hr1]; rfl
        · rintro ⟨_, h⟩
          rw [h, he1, hr1]; rfl

/-! ## Sorting -/

theorem sortSlice_perm {α : Type} (less : α → α → Bool) (l : List α) :
    (sortSlice less l).Perm l :=
  List.perm_insertionSort _ l

theorem sortSlice_mem {α : Type} (less : α → α → Bool) (l : List α) (x : α) :
    x ∈ sortSlice less l ↔ x ∈ l :=
  (sortSlice_perm less l).mem_iff

theorem sortSlice_sorted_key {α : Type} (key : α → Int) (l : List α) :
    (sortSlice (fun a b => decide (key a < key b)) l).Pairwise (fun a b => key a ≤ key b) := by
  have htot : IsTotal α (fun a b => decide (key b < key a) = false) :=
    ⟨fun a b => by simp only [decide_eq_false_iff_not]; omega⟩
  have htr : IsTrans α (fun a b => decide (key b < key a) = false) :=
    ⟨fun a b c => by simp only [decide_eq_false_iff_not]; omega⟩
  have h := List.sorted_insertionSort (fun a b => decide (key b < key a) = false) l
  refine List.Pairwise.imp ?_ h
  intro a b
  simp only [decide_eq_false_iff_not]
  omega

/-! ## The two index scans -/

theorem sliceAt_append_cons {α : Type} (A : List α) (b : α) (B : List α) :
    sliceAt (A ++ b :: B) (A.length : Int) = .ok b := by
  rw [sliceAt_ok_iff]
  refine ⟨by omega, ?_⟩
  rw [Int.toNat_ofNat, List.get?_eq_getElem?, List.getElem?_append_right (le_refl _)]
  simp

/-- What `absList.findIndex` computes, for any list: either nothing is
selectable and the initial index is returned, or the result is the position of
an entry `e` later than the initial `at` and not after `when`, every earlier
entry is earlier than `e` or after `when`, and no later entry lies in
`(e, when]`. -/
theorem abs_findIndexLoop_spec (when : Time) (l : List absEntry) (i : Int) (at0 : Time)
    (idx : Int) :
    (absList.findIndexLoop when l i at0 idx = idx ∧
        ∀ e ∈ l, ¬ (at0.ns < e.time.ns ∧ e.time.ns ≤ when.ns)) ∨
    (∃ pre e post, l = pre ++ e :: post ∧
        absList.findIndexLoop when l i at0 idx = i + pre.length ∧
        at0.ns < e.time.ns ∧ e.time.ns ≤ when.ns ∧
        (∀ x ∈ pre, x.time.ns < e.time.ns ∨ when.ns < x.time.ns) ∧
        (∀ x ∈ post, ¬ (e.time.ns < x.time.ns ∧ x.time.ns ≤ when.ns))) := by
  induction l generalizing i at0 idx with
  | nil => left; exact ⟨rfl, by simp⟩
  | cons e0 rest ih =>
    unfold absList.findIndexLoop
    by_cases hsel : at0.ns < e0.time.ns ∧ e0.time.ns ≤ when.ns
    · have hc : (e0.time.After at0 && !when.Before e0.time) = true := by
        simp only [Time.After, Time.Before, Bool.and_eq_true, decide_eq_true_eq,
          Bool.not_eq_true', decide_eq_false_iff_not]
        omega
      rw [if_pos hc]
      right
      rcases ih (i + 1) e0.time i with ⟨h1, h2⟩ | ⟨pre, e, post, h1, h2, h3, h4, h5, h6⟩
      · exact ⟨[], e0, rest, rfl, by rw [h1]; simp, hsel.1, hsel.2, by simp, h2⟩
      · refine ⟨e0 :: pre, e, post, by rw [h1]; rfl, ?_, by omega, h4, ?_, h6⟩
        · rw [h2]; simp only [List.length_cons]; push_cast; omega
        · intro x hx
          rcases List.mem_cons.mp hx with h | h
          · subst h; left; exact h3
          · exact h5 x h
    · have hc : ¬ ((e0.time.After at0 && !when.Before e0.time) = true) := by
        simp only [Time.After, Time.Before, Bool.and_eq_true, decide_eq_true_eq,
          Bool.not_eq_true', decide_eq_false_iff_not]
        omega
      rw [if_neg hc]
      rcases ih (i + 1) at0 idx with ⟨h1, h2⟩ | ⟨pre, e, post, h1, h2, h3, h4, h5, h6⟩
      · left
        refine ⟨h1, ?_⟩
        intro x hx
        rcases List.mem_cons.mp hx with h | h
        · subst h; exact hsel
        · exact h2 x h
      · right
        refine ⟨e0 :: pre, e, post, by rw [h1]; rfl, ?_, h3, h4, ?_, h6⟩
        · rw [h2]; simp only [List.length_cons]; push_cast; omega
        · intro x hx
          rcases List.mem_cons.mp hx with h | h
          · subst h; omega
          · exact h5 x h

/-- What `weeklyList.findIndex` computes, for any list: either no entry is at
or below the offset and the initial index is returned, or the result is the
position of an entry at or below the offset with only larger entries after
it. -/
theorem weekly_findIndexLoop_spec (offset : Int) (l : List weeklyEntry) (i idx : Int) :
    (weeklyList.findIndexLoop offset l i idx = idx ∧ ∀ e ∈ l, offset < e.Time) ∨
    (∃ pre e post, l = pre ++ e :: post ∧
        weeklyList.findIndexLoop offset l i idx = i + pre.length ∧
        e.Time ≤ offset ∧ ∀ x ∈ post, offset < x.Time) := by
  induction l generalizing i idx with
  | nil => left; exact ⟨rfl, by simp⟩
  | cons e0 rest ih =>
    unfold weeklyList.findIndexLoop
    by_cases hsel : e0.Time ≤ offset
    · rw [if_pos hsel]
      right
      rcases ih (i + 1) i with ⟨h1, h2⟩ | ⟨pre, e, post, h1, h2, h3, h4⟩
      · exact ⟨[], e0, rest, rfl, by rw [h1]; simp, hsel, h2⟩
      · refine ⟨e0 :: pre, e, post, by rw [h1]; rfl, ?_, h3, h4⟩
        rw [h2]; simp only [List.length_cons]; push_cast; omega
    · rw [if_neg hsel]
      rcases ih (i + 1) idx with ⟨h1, h2⟩ | ⟨pre, e, post, h1, h2, h3, h4⟩
      · left
        refine ⟨h1, ?_⟩
        intro x hx
        rcases List.mem_cons.mp hx with h | h
        · subst h; omega
        · exact h2 x h
      · right
        refine ⟨e0 :: pre, e, post, by rw [h1]; rfl, ?_, h3, h4⟩
        rw [h2]; simp only [List.length_cons]; push_cast; omega

/-! ## Weekly offsets and instants -/

theorem ToWeeklyOffset_eq (when : Time) :
    ToWeeklyOffset when = when.localSec - (when.localSec / 86400 - (when.localSec / 86400 + 4) % 7) * 86400 := by
  unfold ToWeeklyOffset Time.Weekday Time.Hour Time.Minute Time.Second Time.civilDay
  generalize when.localSec = x
  omega

theorem ToWeeklyOffset_range (when : Time) :
    0 ≤ ToWeeklyOffset when ∧ ToWeeklyOffset when < 604800 := by
  rw [ToWeeklyOffset_eq]
  generalize when.localSec = x
  omega

theorem ToTime_ns (w : Int) (when : Time) :
    (weeklyOffset.ToTime w when).ns = (when.Unix - ToWeeklyOffset when + w) * 1000000000 := by
  rw [ToWeeklyOffset_eq]
  unfold weeklyOffset.ToTime Time.Date Time.AddDays Time.civilDay Time.Weekday Time.civilDay
    Time.localSec Time.Unix
  simp only
  generalize when.ns = n
  generalize when.loc.offset = o
  omega

theorem weekStart_utc (when : Time) (h : when.loc = UTC) :
    ∃ k : Int, when.Unix - ToWeeklyOffset when = 259200 + k * 604800 := by
  refine ⟨(when.localSec / 86400 + 4) / 7 - 1, ?_⟩
  rw [ToWeeklyOffset_eq]
  unfold Time.localSec
  rw [h]
  simp only [UTC]
  generalize when.Unix = x
  omega

theorem ns_lt_sec_iff (when : Time) (r : Int) :
    when.ns < r * 1000000000 ↔ when.Unix < r := by
  unfold Time.Unix
  generalize when.ns = n
  omega

theorem sec_le_ns_iff (when : Time) (r : Int) :
    r * 1000000000 ≤ when.ns ↔ r ≤ when.Unix := by
  unfold Time.Unix
  generalize when.ns = n
  omega

/-! ## Finalize on lists and schedules -/

theorem weeklyList_Finalize_ok (p L : weeklyList) (macs : List String) :
    weeklyList.Finalize p macs = .ok L ↔
      (∀ e ∈ p, indexesValid macs e.Indexes) ∧
        L = weeklyList.padded (weeklyList.resolvedSorted p macs) := by
  unfold weeklyList.Finalize
  cases h : weeklyList.finalizeEach macs (sortSlice (fun a b => decide (a.Time < b.Time)) p) with
  | error f =>
    simp only
    constructor
    · intro h1; cases h1
    · rintro ⟨h1, _⟩
      have := (weekly_finalizeEach_ok macs
          (sortSlice (fun a b => decide (a.Time < b.Time)) p) _).mpr
        ⟨fun e he => h1 e ((sortSlice_mem _ _ _).mp he), rfl⟩
      rw [h] at this; cases this
  | ok list =>
    obtain ⟨h1, h2⟩ := (weekly_finalizeEach_ok macs _ _).mp h
    have hv : ∀ e ∈ p, indexesValid macs e.Indexes :=
      fun e he => h1 e ((sortSlice_mem _ _ _).mpr he)
    have hp : weeklyList.padded (weeklyList.resolvedSorted p macs) = weeklyList.padded list := by
      rw [h2]; rfl
    rw [hp]
    simp only
    unfold weeklyList.padded
    cases list.head? <;> cases list.getLast? <;> simp only <;>
      exact ⟨fun h3 => ⟨hv, by injection h3 with h3; exact h3.symm⟩,
        fun h3 => by rw [h3.2]⟩

theorem absList_Finalize_ok (list L : absList) (macs : List String) (tz : Location) :
    absList.Finalize list macs tz = .ok L ↔
      (∀ e ∈ list, indexesValid macs e.Indexes) ∧ L = absList.finalized list macs tz := by
  unfold absList.Finalize
  rw [abs_finalizeEach_ok]
  constructor
  · rintro ⟨h1, h2⟩
    exact ⟨fun e he => h1 e ((sortSlice_mem _ _ _).mpr he), h2⟩
  · rintro ⟨h1, h2⟩
    exact ⟨fun e he => h1 e ((sortSlice_mem _ _ _).mp he), h2⟩

theorem schedule_Finalize_ok (tzdb : String → Option Location) (raw s : schedule)
    (h : raw.Finalize tzdb = .ok s) :
    ∃ tz, LoadLocation tzdb raw.TimeZone = some tz ∧ 0 ≤ raw.ReportRate ∧
      (∀ e ∈ raw.Absolute, indexesValid raw.MACs e.Indexes) ∧
      (∀ e ∈ raw.Weekly, indexesValid raw.MACs e.Indexes) ∧
      s.Absolute = absList.finalized raw.Absolute raw.MACs tz ∧
      s.Weekly = weeklyList.padded (weeklyList.resolvedSorted raw.Weekly raw.MACs) ∧
      s.MACs = raw.MACs := by
  unfold schedule.Finalize at h
  cases htz : LoadLocation tzdb raw.TimeZone with
  | none => rw [htz] at h; cases h
  | some tz =>
    rw [htz] at h
    simp only at h
    by_cases hr : raw.ReportRate < 0
    · rw [if_pos hr] at h; cases h
    · rw [if_neg hr] at h
      cases ha : absList.Finalize raw.Absolute raw.MACs tz with
      | error f => rw [ha] at h; cases h
      | ok absolute =>
        rw [ha] at h
        simp only at h
        cases hw : weeklyList.Finalize raw.Weekly raw.MACs with
        | error f => rw [hw] at h; cases h
        | ok weekly =>
          rw [hw] at h
          simp only at h
          injection h with h
          obtain ⟨ha1, ha2⟩ := (absList_Finalize_ok _ _ _ _).mp ha
          obtain ⟨hw1, hw2⟩ := (weeklyList_Finalize_ok _ _ _).mp hw
          refine ⟨tz, rfl, by omega, ha1, hw1, ?_, ?_, ?_⟩
          · rw [← h, ha2]
          · rw [← h, hw2]
          · rw [← h]

/-! ## Membership in finalized lists -/

theorem sliceAt_mem {α : Type} (l : List α) (i : Int) (a : α) (h : sliceAt l i = .ok a) :
    a ∈ l :=
  List.get?_mem ((sliceAt_ok_iff l i a).mp h).2

theorem mem_absList_finalized (raw : absList) (macs : List String) (tz : Location)
    (e : absEntry) :
    e ∈ absList.finalized raw macs tz ↔ ∃ r ∈ raw, e = r.resolved macs tz := by
  unfold absList.finalized
  rw [List.mem_map]
  constructor
  · rintro ⟨r, hr, he⟩
    exact ⟨r, (sortSlice_mem _ _ _).mp hr, he.symm⟩
  · rintro ⟨r, hr, he⟩
    exact ⟨r, (sortSlice_mem _ _ _).mpr hr, he.symm⟩

theorem mem_resolvedSorted (raw : weeklyList) (macs : List String) (e : weeklyEntry) :
    e ∈ weeklyList.resolvedSorted raw macs ↔ ∃ r ∈ raw, e = r.resolved macs := by
  unfold weeklyList.resolvedSorted
  rw [List.mem_map]
  constructor
  · rintro ⟨r, hr, he⟩
    exact ⟨r, (sortSlice_mem _ _ _).mp hr, he.symm⟩
  · rintro ⟨r, hr, he⟩
    exact ⟨r, (sortSlice_mem _ _ _).mpr hr, he.symm⟩

/-- The padded list of a non-empty list, spelled out. -/
theorem padded_eq (S : weeklyList) (hS : S ≠ []) :
    ∃ first last, first ∈ S ∧ last ∈ S ∧ S.head? = some first ∧ S.getLast? = some last ∧
      weeklyList.padded S =
        ({ last with Time := wrapInt64 (last.Time - oneWeek) } :: S) ++
          [{ first with Time := wrapInt64 (first.Time + oneWeek) }] := by
  cases S with
  | nil => exact absurd rfl hS
  | cons a S1 =>
    refine ⟨a, (a :: S1).getLast hS, List.mem_cons_self _ _, List.getLast_mem hS, rfl,
      List.getLast?_eq_getLast _ hS, ?_⟩
    unfold weeklyList.padded
    rw [List.getLast?_eq_getLast _ hS]
    rfl

theorem padded_nil : weeklyList.padded [] = [] := rfl

theorem mem_padded_macs (S : weeklyList) (e : weeklyEntry) (h : e ∈ weeklyList.padded S) :
    ∃ x ∈ S, e.macs = x.macs ∧ e.Indexes = x.Indexes := by
  by_cases hS : S = []
  · subst hS; rw [padded_nil] at h; cases h
  · obtain ⟨first, last, hf, hl, _, _, hp⟩ := padded_eq S hS
    rw [hp] at h
    rcases List.mem_append.mp h with h | h
    · rcases List.mem_cons.mp h with h | h
      · exact ⟨last, hl, by rw [h], by rw [h]⟩
      · exact ⟨e, h, rfl, rfl⟩
    · rw [List.mem_singleton] at h
      exact ⟨first, hf, by rw [h], by rw [h]⟩

theorem resolve_isResolutionOf (macs : List String) (idxs : List Int)
    (h : indexesValid macs idxs) : isResolutionOf macs idxs (resolve macs idxs) := by
  refine ⟨by simp [resolve], ?_⟩
  intro i hi
  have hv := h (idxs.get ⟨i, hi⟩) (List.get_mem _ _ _)
  have hlt : (idxs.get ⟨i, hi⟩).toNat < macs.length := by omega
  unfold resolve
  rw [List.get?_eq_get (by simpa using hi)]
  simp only [List.get_eq_getElem, List.getElem_map]
  have hlt1 : idxs[i].toNat < macs.length := hlt
  rw [List.get?_eq_get hlt1]
  rfl

/-! ## The queries on one list -/

/-- Both absolute queries, read off the scan: with no selectable entry the
answer is "none" and `Until` is the first entry's time; otherwise the selected
entry `e` splits the list and `Until` is the time of the entry right after
it. -/
theorem abs_query_spec (L : absList) (when : Time) :
    (L.Blocked when = .ok (Time.zero, [], false) ∧
        L.Until when = .ok (match L with | [] => Time.zero | x :: _ => x.time) ∧
        ∀ e ∈ L, ¬ (Time.zero.ns < e.time.ns ∧ e.time.ns ≤ when.ns)) ∨
    (∃ pre e post, L = pre ++ e :: post ∧
        L.Blocked when = .ok (e.time, e.macs, decide (post ≠ [])) ∧
        L.Until when = .ok (match post with | [] => Time.zero | x :: _ => x.time) ∧
        Time.zero.ns < e.time.ns ∧ e.time.ns ≤ when.ns ∧
        (∀ x ∈ pre, x.time.ns < e.time.ns ∨ when.ns < x.time.ns) ∧
        (∀ x ∈ post, ¬ (e.time.ns < x.time.ns ∧ x.time.ns ≤ when.ns))) := by
  rcases abs_findIndexLoop_spec when L 0 Time.zero (-1) with
    ⟨h1, h2⟩ | ⟨pre, e, post, h1, h2, h3, h4, h5, h6⟩
  · left
    have hfi : L.findIndex when = -1 := h1
    refine ⟨?_, ?_, h2⟩
    · unfold absList.Blocked
      simp only [hfi]
      rfl
    · unfold absList.Until
      simp only [hfi]
      cases L with
      | nil => rfl
      | cons x rest =>
        have hlen : ¬ ((x :: rest).length = 0) := by simp
        have hlen2 : ¬ (((x :: rest).length : Int) = -1 + 1) := by
          simp only [List.length_cons]; push_cast; omega
        rw [if_neg hlen, if_neg hlen2]
        have := sliceAt_append_cons [] x rest
        simp only [List.length_nil, List.nil_append] at this
        have h0 : (-1 + 1 : Int) = ((0 : Nat) : Int) := by norm_num
        rw [h0, this]
  · right
    have hfi : L.findIndex when = (pre.length : Int) := by
      show absList.findIndexLoop when L 0 Time.zero (-1) = _
      rw [h2]; omega
    refine ⟨pre, e, post, h1, ?_, ?_, h3, h4, h5, h6⟩
    · unfold absList.Blocked
      simp only [hfi]
      have hpos : (pre.length : Int) > -1 := by omega
      rw [if_pos hpos]
      subst h1
      rw [sliceAt_append_cons]
      simp only [List.length_append, List.length_cons]
      congr 3
      cases post with
      | nil => simp
      | cons x rest => simp; omega
    · unfold absList.Until
      simp only [hfi]
      subst h1
      have hlen : ¬ ((pre ++ e :: post).length = 0) := by simp
      rw [if_neg hlen]
      cases post with
      | nil =>
        have : ((pre ++ [e]).length : Int) = (pre.length : Int) + 1 := by simp
        rw [if_pos this]
      | cons x rest =>
        have hne : ¬ (((pre ++ e :: x :: rest).length : Int) = (pre.length : Int) + 1) := by
          simp only [List.length_append, List.length_cons]; push_cast; omega
        rw [if_neg hne]
        have h := sliceAt_append_cons (pre ++ [e]) x rest
        simp only [List.length_append, List.length_singleton, List.append_assoc,
          List.singleton_append] at h
        push_cast at h
        rw [h]

theorem sliceAt_past_end {α : Type} (l : List α) (i : Int) (h : (l.length : Int) ≤ i) :
    sliceAt l i = .error .indexOutOfRange := by
  unfold sliceAt
  have h0 : ¬ (i < 0) := by omega
  rw [if_neg h0, List.get?_eq_none.mpr (by omega)]

/-- Both weekly queries on a non-empty list, read off the scan: the selected
entry is the last one at or below the offset of `when` (the first entry when
there is none), and `Until` reads the entry right after it, which is an
out-of-range access when the selected entry is the last of the list. -/
theorem weekly_query_spec (F : weeklyList) (when : Time) (hF : F ≠ []) :
    (∃ a rest, F = a :: rest ∧ (∀ e ∈ F, ToWeeklyOffset when < e.Time) ∧
        F.Blocked when = .ok (weeklyOffset.ToTime a.Time when, a.macs) ∧
        F.Until when = (match rest with
          | [] => .error .indexOutOfRange
          | x :: _ => .ok (weeklyOffset.ToTime x.Time when))) ∨
    (∃ pre e post, F = pre ++ e :: post ∧ e.Time ≤ ToWeeklyOffset when ∧
        (∀ x ∈ post, ToWeeklyOffset when < x.Time) ∧
        F.Blocked when = .ok (weeklyOffset.ToTime e.Time when, e.macs) ∧
        F.Until when = (match post with
          | [] => .error .indexOutOfRange
          | x :: _ => .ok (weeklyOffset.ToTime x.Time when))) := by
  have hlen : ¬ (F.length = 0) := by
    intro h; exact hF (List.length_eq_zero.mp h)
  rcases weekly_findIndexLoop_spec (ToWeeklyOffset when) F 0 0 with
    ⟨h1, h2⟩ | ⟨pre, e, post, h1, h2, h3, h4⟩
  · left
    have hfi : F.findIndex when = 0 := h1
    cases F with
    | nil => exact absurd rfl hF
    | cons a rest =>
      refine ⟨a, rest, rfl, h2, ?_, ?_⟩
      · unfold weeklyList.Blocked
        rw [if_neg hlen]
        simp only [hfi]
        have := sliceAt_append_cons [] a rest
        simp only [List.length_nil, List.nil_append] at this
        have h0 : (0 : Int) = ((0 : Nat) : Int) := by norm_num
        rw [h0, this]
      · unfold weeklyList.Until
        rw [if_neg hlen]
        simp only [hfi]
        cases rest with
        | nil =>
          rw [sliceAt_past_end]
          simp
        | cons x rest1 =>
          have h := sliceAt_append_cons [a] x rest1
          simp only [List.length_singleton, List.singleton_append] at h
          push_cast at h
          have h0 : (0 + 1 : Int) = 1 := by norm_num
          rw [h0, h]
  · right
    have hfi : F.findIndex when = (pre.length : Int) := by
      show weeklyList.findIndexLoop (ToWeeklyOffset when) F 0 0 = _
      rw [h2]; omega
    refine ⟨pre, e, post, h1, h3, h4, ?_, ?_⟩
    · unfold weeklyList.Blocked
      rw [if_neg hlen]
      simp only [hfi]
      subst h1
      rw [sliceAt_append_cons]
    · unfold weeklyList.Until
      rw [if_neg hlen]
      simp only [hfi]
      subst h1
      cases post with
      | nil =>
        rw [sliceAt_past_end]
        simp
      | cons x rest =>
        have h := sliceAt_append_cons (pre ++ [e]) x rest
        simp only [List.length_append, List.length_singleton, List.append_assoc,
          List.singleton_append] at h
        push_cast at h
        rw [h]

theorem weekly_query_nil (when : Time) :
    weeklyList.Blocked [] when = .ok (Time.zero, []) ∧
      weeklyList.Until [] when = .ok Time.zero :=
  ⟨rfl, rfl⟩

/-! ## The queries on a schedule -/

theorem weekly_Blocked_cases (F : weeklyList) (when : Time) :
    F.Blocked when = .ok (Time.zero, []) ∨
      ∃ x ∈ F, F.Blocked when = .ok (weeklyOffset.ToTime x.Time when, x.macs) := by
  by_cases hF : F = []
  · left; subst hF; rfl
  · right
    rcases weekly_query_spec F when hF with
      ⟨a, rest, h1, _, h3, _⟩ | ⟨pre, e, post, h1, _, _, h4, _⟩
    · exact ⟨a, by rw [h1]; exact List.mem_cons_self _ _, h3⟩
    · exact ⟨e, by rw [h1]; simp, h4⟩

/-- The method `Blocked` returns for every state and every instant: its
result is empty or the device list of an entry of one of the two lists. -/
theorem Schedule_Blocked_cases (s : Schedule) (when : Time) :
    ∃ r, s.Blocked when = .ok r ∧
      (r = [] ∨ (∃ e ∈ s.raw.Absolute, r = e.macs) ∨ (∃ x ∈ s.raw.Weekly, r = x.macs)) := by
  unfold Schedule.Blocked
  rcases abs_query_spec s.raw.Absolute when with
    ⟨h1, _, _⟩ | ⟨pre, e, post, h1, h2, _, _, _, _, _⟩
  · rw [h1]
    simp only [Bool.false_eq_true, if_false]
    rcases weekly_Blocked_cases s.raw.Weekly when with h | ⟨x, hx, h⟩
    · rw [h]
      simp only
      split <;> exact ⟨[], rfl, Or.inl rfl⟩
    · rw [h]
      simp only
      split
      · exact ⟨[], rfl, Or.inl rfl⟩
      · exact ⟨x.macs, rfl, Or.inr (Or.inr ⟨x, hx, rfl⟩)⟩
  · have he : e ∈ s.raw.Absolute := by rw [h1]; simp
    rw [h2]
    simp only
    split
    · exact ⟨e.macs, rfl, Or.inr (Or.inl ⟨e, he, rfl⟩)⟩
    · rcases weekly_Blocked_cases s.raw.Weekly when with h | ⟨x, hx, h⟩
      · rw [h]
        simp only
        split
        · exact ⟨e.macs, rfl, Or.inr (Or.inl ⟨e, he, rfl⟩)⟩
        · exact ⟨[], rfl, Or.inl rfl⟩
      · rw [h]
        simp only
        split
        · exact ⟨e.macs, rfl, Or.inr (Or.inl ⟨e, he, rfl⟩)⟩
        · exact ⟨x.macs, rfl, Or.inr (Or.inr ⟨x, hx, rfl⟩)⟩

/-! ## Shape of a finalized weekly list -/

theorem sorted_head_le {α : Type} (key : α → Int) (S : List α)
    (h : S.Pairwise (fun a b => key a ≤ key b)) (first : α) (hf : S.head? = some first) :
    ∀ x ∈ S, key first ≤ key x := by
  cases S with
  | nil => cases hf
  | cons a S1 =>
    injection hf with hf
    subst hf
    intro x hx
    rcases List.mem_cons.mp hx with h1 | h1
    · rw [h1]
    · exact (List.pairwise_cons.mp h).1 x h1

theorem sorted_le_last {α : Type} (key : α → Int) (S : List α)
    (h : S.Pairwise (fun a b => key a ≤ key b)) (last : α) (hl : S.getLast? = some last) :
    ∀ x ∈ S, key x ≤ key last := by
  induction S with
  | nil => cases hl
  | cons a S1 ih =>
    intro x hx
    cases S1 with
    | nil =>
      have : a = last := by simpa using hl
      subst this
      rcases List.mem_cons.mp hx with h1 | h1
      · rw [h1]
      · cases h1
    | cons b S2 =>
      have hl1 : (b :: S2).getLast? = some last := by
        rw [List.getLast?_cons_cons] at hl; exact hl
      have hp := List.pairwise_cons.mp h
      have hlast_mem : last ∈ b :: S2 := List.mem_of_getLast?_eq_some hl1
      rcases List.mem_cons.mp hx with h1 | h1
      · rw [h1]; exact hp.1 last hlast_mem
      · exact ih hp.2 hl1 x h1

theorem resolvedSorted_sorted (raw : weeklyList) (macs : List String) :
    (weeklyList.resolvedSorted raw macs).Pairwise (fun a b => a.Time ≤ b.Time) := by
  unfold weeklyList.resolvedSorted
  rw [List.pairwise_map]
  exact sortSlice_sorted_key (fun e : weeklyEntry => e.Time) raw

theorem resolvedSorted_ne_nil (raw : weeklyList) (macs : List String) (h : raw ≠ []) :
    weeklyList.resolvedSorted raw macs ≠ [] := by
  cases raw with
  | nil => exact absurd rfl h
  | cons a rest =>
    intro hS
    have : a.resolved macs ∈ weeklyList.resolvedSorted (a :: rest) macs :=
      (mem_resolvedSorted _ _ _).mpr ⟨a, List.mem_cons_self _ _, rfl⟩
    rw [hS] at this
    cases this

/-- The finalized weekly list of a non-empty raw list: the sorted, resolved
entries `S` between a copy of their last entry one week earlier and a copy of
their first entry one week later. -/
theorem finalized_weekly_shape (raw : weeklyList) (macs : List String) (h : raw ≠ []) :
    ∃ S first last, S = weeklyList.resolvedSorted raw macs ∧ first ∈ S ∧ last ∈ S ∧
      (∀ x ∈ S, first.Time ≤ x.Time ∧ x.Time ≤ last.Time) ∧
      S.Pairwise (fun a b => a.Time ≤ b.Time) ∧
      weeklyList.padded S =
        ({ last with Time := wrapInt64 (last.Time - oneWeek) } :: S) ++
          [{ first with Time := wrapInt64 (first.Time + oneWeek) }] := by
  have hS := resolvedSorted_ne_nil raw macs h
  have hsorted := resolvedSorted_sorted raw macs
  obtain ⟨first, last, hf, hl, hhead, hlast, hp⟩ := padded_eq _ hS
  refine ⟨_, first, last, rfl, hf, hl, ?_, hsorted, hp⟩
  intro x hx
  exact ⟨sorted_head_le (fun e : weeklyEntry => e.Time) _ hsorted first hhead x hx,
    sorted_le_last (fun e : weeklyEntry => e.Time) _ hsorted last hlast x hx⟩

theorem wrapInt64_id (x : Int) (h0 : -9223372036854775808 ≤ x) (h1 : x ≤ 9223372036854775807) :
    wrapInt64 x = x := by
  unfold wrapInt64
  omega

/-- On a list that ends with an entry above the offset of `when` and has at
least one more entry, `weeklyList.Until` returns. -/
theorem weekly_Until_ok (F G : weeklyList) (n : weeklyEntry) (when : Time)
    (hF : F = G ++ [n]) (hG : G ≠ []) (hn : ToWeeklyOffset when < n.Time) :
    ∃ x ∈ F, ToWeeklyOffset when < x.Time ∧
      F.Until when = .ok (weeklyOffset.ToTime x.Time when) := by
  have hFne : F ≠ [] := by rw [hF]; simp
  rcases weekly_query_spec F when hFne with
    ⟨a, rest, h1, h2, _, h4⟩ | ⟨pre, e, post, h1, h2, h3, _, h5⟩
  · cases rest with
    | nil =>
      exfalso
      cases G with
      | nil => exact hG rfl
      | cons g G1 =>
        rw [hF] at h1
        have := congrArg List.length h1
        simp at this
    | cons x rest1 =>
      exact ⟨x, by rw [h1]; simp, h2 x (by rw [h1]; simp), h4⟩
  · cases post with
    | nil =>
      exfalso
      rw [hF] at h1
      have h6 := List.append_inj_right' h1 rfl
      injection h6 with h6
      rw [h6] at hn
      omega
    | cons x rest1 =>
      exact ⟨x, by rw [h1]; simp, h3 x (List.mem_cons_self _ _), h5⟩

/-- The method `absList.Until` returns for every list: its result is the zero
time or the time of an entry. -/
theorem abs_Until_ok (L : absList) (when : Time) :
    ∃ u, L.Until when = .ok u ∧ (u = Time.zero ∨ ∃ e ∈ L, u = e.time) := by
  rcases abs_query_spec L when with ⟨_, h2, _⟩ | ⟨pre, e, post, h1, _, h3, _⟩
  · refine ⟨_, h2, ?_⟩
    cases L with
    | nil => exact Or.inl rfl
    | cons x rest => exact Or.inr ⟨x, List.mem_cons_self _ _, rfl⟩
  · refine ⟨_, h3, ?_⟩
    cases post with
    | nil => exact Or.inl rfl
    | cons x rest => exact Or.inr ⟨x, by rw [h1]; simp, rfl⟩

/-! ## Finalized weekly lists with offsets inside the week -/

/-- The raw weekly offsets lie in `[0, 604800)`. -/
theorem finalized_weekly_inrange (raw : weeklyList) (macs : List String) (hne : raw ≠ [])
    (hrange : ∀ e ∈ raw, 0 ≤ e.Time ∧ e.Time < 604800) :
    ∃ rf rl, rf ∈ raw ∧ rl ∈ raw ∧ (∀ r ∈ raw, rf.Time ≤ r.Time ∧ r.Time ≤ rl.Time) ∧
      weeklyList.padded (weeklyList.resolvedSorted raw macs) =
        ({ rl.resolved macs with Time := rl.Time - 604800 } ::
          weeklyList.resolvedSorted raw macs) ++
          [{ rf.resolved macs with Time := rf.Time + 604800 }] ∧
      (weeklyList.padded (weeklyList.resolvedSorted raw macs)).Pairwise
        (fun a b => a.Time ≤ b.Time) := by
  obtain ⟨S, first, last, hS, hf, hl, hbounds, hsorted, hp⟩ :=
    finalized_weekly_shape raw macs hne
  subst hS
  obtain ⟨rf, hrf, hfr⟩ := (mem_resolvedSorted _ _ _).mp hf
  obtain ⟨rl, hrl, hlr⟩ := (mem_resolvedSorted _ _ _).mp hl
  have hft : first.Time = rf.Time := by rw [hfr]; rfl
  have hlt : last.Time = rl.Time := by rw [hlr]; rfl
  have h1 := hrange rf hrf
  have h2 := hrange rl hrl
  have hpe : weeklyList.padded (weeklyList.resolvedSorted raw macs) =
      ({ rl.resolved macs with Time := rl.Time - 604800 } ::
        weeklyList.resolvedSorted raw macs) ++
        [{ rf.resolved macs with Time := rf.Time + 604800 }] := by
    rw [hp, hfr, hlr]
    have e1 : wrapInt64 ((rl.resolved macs).Time - oneWeek) = rl.Time - 604800 := by
      have : (rl.resolved macs).Time = rl.Time := rfl
      rw [this, wrapInt64_id _ (by unfold oneWeek; omega) (by unfold oneWeek; omega)]
      unfold oneWeek; omega
    have e2 : wrapInt64 ((rf.resolved macs).Time + oneWeek) = rf.Time + 604800 := by
      have : (rf.resolved macs).Time = rf.Time := rfl
      rw [this, wrapInt64_id _ (by unfold oneWeek; omega) (by unfold oneWeek; omega)]
      unfold oneWeek; omega
    rw [e1, e2]
  have hraw : ∀ r ∈ raw, rf.Time ≤ r.Time ∧ r.Time ≤ rl.Time := by
    intro r hr
    have := hbounds (r.resolved macs) ((mem_resolvedSorted _ _ _).mpr ⟨r, hr, rfl⟩)
    have hrt : (r.resolved macs).Time = r.Time := rfl
    rw [hrt, hft, hlt] at this
    exact this
  have hStime : ∀ x ∈ weeklyList.resolvedSorted raw macs, 0 ≤ x.Time ∧ x.Time < 604800 := by
    intro x hx
    obtain ⟨r, hr, hxr⟩ := (mem_resolvedSorted _ _ _).mp hx
    have : x.Time = r.Time := by rw [hxr]; rfl
    rw [this]
    exact hrange r hr
  refine ⟨rf, rl, hrf, hrl, hraw, hpe, ?_⟩
  rw [hpe, List.pairwise_append]
  refine ⟨?_, List.pairwise_singleton _ _, ?_⟩
  · rw [List.pairwise_cons]
    refine ⟨?_, hsorted⟩
    intro x hx
    have := hStime x hx
    show rl.Time - 604800 ≤ x.Time
    omega
  · intro a ha b hb
    rw [List.mem_singleton] at hb
    subst hb
    show a.Time ≤ rf.Time + 604800
    rcases List.mem_cons.mp ha with h | h
    · subst h
      show rl.Time - 604800 ≤ rf.Time + 604800
      omega
    · have := hStime a h
      omega

/-- Both weekly queries on such a list: `Blocked` reads the entry `e` with the
greatest offset at or below the offset of `when`, `Until` reads the entry `x`
with the least offset above it. -/
theorem weekly_inrange_query (raw : weeklyList) (macs : List String) (when : Time)
    (hne : raw ≠ []) (hrange : ∀ e ∈ raw, 0 ≤ e.Time ∧ e.Time < 604800) :
    ∃ e x, e ∈ weeklyList.padded (weeklyList.resolvedSorted raw macs) ∧
      x ∈ weeklyList.padded (weeklyList.resolvedSorted raw macs) ∧
      e.Time ≤ ToWeeklyOffset when ∧ ToWeeklyOffset when < x.Time ∧
      (∀ y ∈ weeklyList.padded (weeklyList.resolvedSorted raw macs),
        y.Time ≤ ToWeeklyOffset when → y.Time ≤ e.Time) ∧
      (∀ y ∈ weeklyList.padded (weeklyList.resolvedSorted raw macs),
        ToWeeklyOffset when < y.Time → x.Time ≤ y.Time) ∧
      (weeklyList.padded (weeklyList.resolvedSorted raw macs)).Blocked when =
        .ok (weeklyOffset.ToTime e.Time when, e.macs) ∧
      (weeklyList.padded (weeklyList.resolvedSorted raw macs)).Until when =
        .ok (weeklyOffset.ToTime x.Time when) := by
  obtain ⟨rf, rl, hrf, hrl, hraw, hpe, hsorted⟩ := finalized_weekly_inrange raw macs hne hrange
  have hoff := ToWeeklyOffset_range when
  generalize hFdef : weeklyList.padded (weeklyList.resolvedSorted raw macs) = F at *
  have hFne : F ≠ [] := by rw [hpe]; simp
  have hprior : ({ rl.resolved macs with Time := rl.Time - 604800 } : weeklyEntry) ∈ F := by
    rw [hpe]; simp
  have h2 := hrange rl hrl
  have h1 := hrange rf hrf
  rcases weekly_query_spec F when hFne with
    ⟨a, rest, _, hall, _, _⟩ | ⟨pre, e, post, hsplit, he, hpost, hB, hU⟩
  · exfalso
    have := hall _ hprior
    have ht : ({ rl.resolved macs with Time := rl.Time - 604800 } : weeklyEntry).Time
        = rl.Time - 604800 := rfl
    rw [ht] at this
    omega
  · cases post with
    | nil =>
      exfalso
      rw [hpe] at hsplit
      have h6 := List.append_inj_right' hsplit rfl
      injection h6 with h6
      have ht : e.Time = rf.Time + 604800 := by rw [← h6]
      omega
    | cons x post1 =>
      rw [hsplit] at hsorted
      obtain ⟨_, hs2, hs3⟩ := List.pairwise_append.mp hsorted
      obtain ⟨hs4, hs5⟩ := List.pairwise_cons.mp hs2
      obtain ⟨hs6, _⟩ := List.pairwise_cons.mp hs5
      refine ⟨e, x, by rw [hsplit]; simp, by rw [hsplit]; simp, he,
        hpost x (List.mem_cons_self _ _), ?_, ?_, hB, hU⟩
      · intro y hy hyo
        rw [hsplit] at hy
        rcases List.mem_append.mp hy with h | h
        · exact hs3 y h e (List.mem_cons_self _ _)
        · rcases List.mem_cons.mp h with h | h
          · rw [h]
          · have := hpost y h
            omega
      · intro y hy hyo
        rw [hsplit] at hy
        rcases List.mem_append.mp hy with h | h
        · have := hs3 y h e (List.mem_cons_self _ _)
          omega
        · rcases List.mem_cons.mp h with h | h
          · subst h; omega
          · rcases List.mem_cons.mp h with h | h
            · rw [h]
            · exact hs6 y h

/-- Every entry of the finalized list is a raw entry, possibly moved by one
week, with the devices of that raw entry. -/
theorem mem_padded_raw (raw : weeklyList) (macs : List String) (hne : raw ≠ [])
    (hrange : ∀ e ∈ raw, 0 ≤ e.Time ∧ e.Time < 604800) (y : weeklyEntry)
    (hy : y ∈ weeklyList.padded (weeklyList.resolvedSorted raw macs)) :
    ∃ r ∈ raw, ∃ j : Int, y.Time = r.Time + j * 604800 ∧ y.macs = resolve macs r.Indexes := by
  obtain ⟨rf, rl, hrf, hrl, _, hpe, _⟩ := finalized_weekly_inrange raw macs hne hrange
  rw [hpe] at hy
  rcases List.mem_append.mp hy with h | h
  · rcases List.mem_cons.mp h with h | h
    · refine ⟨rl, hrl, -1, ?_, by rw [h]; rfl⟩
      rw [h]
      show rl.Time - 604800 = _
      omega
    · obtain ⟨r, hr, hyr⟩ := (mem_resolvedSorted _ _ _).mp h
      refine ⟨r, hr, 0, ?_, by rw [hyr]; rfl⟩
      rw [hyr]
      show r.Time = _
      omega
  · rw [List.mem_singleton] at h
    refine ⟨rf, hrf, 1, ?_, by rw [h]; rfl⟩
    rw [h]
    show rf.Time + 604800 = _
    omega

/-! ## Finalized absolute lists -/

theorem resolved_time_ns (r : absEntry) (macs : List String) (tz : Location)
    (h : r.Indexes ≠ []) (h0 : Time.zero.ns < r.UnixTime * 1000000000)
    (h1 : r.UnixTime + 62135596800 ≤ 9223372036854775807) :
    (r.resolved macs tz).time.ns = r.UnixTime * 1000000000 := by
  have hz : Time.zero.ns = -62135596800000000000 := rfl
  unfold absEntry.resolved
  simp only [h, if_false, Time.In, Time.ofUnix]
  rw [wrapInt64_id _ (by omega) (by omega)]
  omega

/-- The time stored for an `int64` second count, when it is later than the
zero time, is that second: a wrapped sum lies before the zero time. -/
theorem resolved_time_selectable (r : absEntry) (macs : List String) (tz : Location)
    (h : r.Indexes ≠ [])
    (hint : -9223372036854775808 ≤ r.UnixTime ∧ r.UnixTime ≤ 9223372036854775807)
    (hpos : Time.zero.ns < (r.resolved macs tz).time.ns) :
    (r.resolved macs tz).time.ns = r.UnixTime * 1000000000 := by
  have hz : Time.zero.ns = -62135596800000000000 := rfl
  unfold absEntry.resolved at hpos ⊢
  simp only [h, if_false, Time.In, Time.ofUnix] at hpos ⊢
  unfold wrapInt64 at hpos ⊢
  omega

theorem resolved_time_fresh (r : absEntry) (macs : List String) (tz : Location)
    (h : r.Indexes = []) : (r.resolved macs tz).time = r.time := by
  unfold absEntry.resolved
  simp only [h, if_true]

theorem finalized_abs_sorted_strict (raw : absList) (macs : List String) (tz : Location)
    (hdistinct : raw.Pairwise (fun a b => a.UnixTime ≠ b.UnixTime)) :
    (absList.finalized raw macs tz).Pairwise (fun a b => a.UnixTime < b.UnixTime) := by
  unfold absList.finalized
  rw [List.pairwise_map]
  have h1 := sortSlice_sorted_key (fun e : absEntry => e.UnixTime) raw
  have h2 : (sortSlice (fun a b : absEntry => decide (a.UnixTime < b.UnixTime)) raw).Pairwise
      (fun a b => a.UnixTime ≠ b.UnixTime) :=
    (List.Perm.pairwise_iff (fun h => Ne.symm h) (sortSlice_perm _ raw)).mpr hdistinct
  refine List.Pairwise.imp₂ ?_ h1 h2
  intro a b hle hne
  show a.UnixTime < b.UnixTime
  omega

/-- Past the last absolute instant, with pairwise distinct instants later than
the zero time, `absList.Until` has no further entry to report: it returns a
zero time. -/
theorem abs_until_zero_past_last (raw : absList) (macs : List String) (tz : Location)
    (when : Time)
    (hdistinct : raw.Pairwise (fun a b => a.UnixTime ≠ b.UnixTime))
    (hpast : ∀ a ∈ raw, a.UnixTime * 1000000000 ≤ when.ns)
    (hafter : ∀ a ∈ raw, Time.zero.ns < a.UnixTime * 1000000000)
    (hrep : ∀ a ∈ raw, a.UnixTime + 62135596800 ≤ 9223372036854775807)
    (hfresh : ∀ a ∈ raw, a.Indexes = [] → a.time = Time.zero) :
    ∃ u, (absList.finalized raw macs tz).Until when = .ok u ∧ u.IsZero = true := by
  have hsorted := finalized_abs_sorted_strict raw macs tz hdistinct
  have hlive : ∀ x ∈ absList.finalized raw macs tz,
      x.time = Time.zero ∨
        (x.time.ns = x.UnixTime * 1000000000 ∧ Time.zero.ns < x.time.ns ∧
          x.time.ns ≤ when.ns) := by
    intro x hx
    obtain ⟨r, hr, hxr⟩ := (mem_absList_finalized _ _ _ _).mp hx
    by_cases hi : r.Indexes = []
    · left; rw [hxr, resolved_time_fresh r macs tz hi]; exact hfresh r hr hi
    · right
      have hU : x.UnixTime = r.UnixTime := by rw [hxr]; rfl
      have := resolved_time_ns r macs tz hi (hafter r hr) (hrep r hr)
      rw [← hxr] at this
      have h1 := hpast r hr
      have h2 := hafter r hr
      rw [hU]
      omega
  generalize absList.finalized raw macs tz = L at *
  rcases abs_query_spec L when with ⟨_, h2, h3⟩ | ⟨pre, e, post, h1, _, h3, h4, h5, _, h7⟩
  · refine ⟨_, h2, ?_⟩
    cases L with
    | nil => rfl
    | cons x rest =>
      rcases hlive x (List.mem_cons_self _ _) with h | ⟨_, ha, hb⟩
      · show x.time.IsZero = true
        rw [h]; rfl
      · exact absurd ⟨ha, hb⟩ (h3 x (List.mem_cons_self _ _))
  · refine ⟨_, h3, ?_⟩
    cases post with
    | nil => rfl
    | cons x rest =>
      show x.time.IsZero = true
      have hx : x ∈ L := by rw [h1]; simp
      have he : e ∈ L := by rw [h1]; simp
      rcases hlive x hx with h | ⟨hxn, _, hb⟩
      · rw [h]; rfl
      · exfalso
        rcases hlive e he with h | ⟨hen, _, _⟩
        · rw [h] at h4; omega
        · rw [h1] at hsorted
          obtain ⟨_, hs2, _⟩ := List.pairwise_append.mp hsorted
          have hlt := (List.pairwise_cons.mp hs2).1 x (List.mem_cons_self _ _)
          exact h7 x (List.mem_cons_self _ _) ⟨by omega, hb⟩

/-- With non-empty index lists and instants that `time.Unix` stores unwrapped
after the zero time, every finalized absolute entry carries its own instant. -/
theorem finalized_abs_live (raw : absList) (macs : List String) (tz : Location)
    (hnonempty : ∀ a ∈ raw, a.Indexes ≠ [])
    (hafter : ∀ a ∈ raw, Time.zero.ns < a.UnixTime * 1000000000)
    (hrep : ∀ a ∈ raw, a.UnixTime + 62135596800 ≤ 9223372036854775807) :
    ∀ x ∈ absList.finalized raw macs tz,
      x.time.ns = x.UnixTime * 1000000000 ∧
        ∃ r ∈ raw, x.UnixTime = r.UnixTime ∧ x.macs = resolve macs r.Indexes := by
  intro x hx
  obtain ⟨r, hr, hxr⟩ := (mem_absList_finalized _ _ _ _).mp hx
  have hU : x.UnixTime = r.UnixTime := by rw [hxr]; rfl
  have := resolved_time_ns r macs tz (hnonempty r hr) (hafter r hr) (hrep r hr)
  rw [← hxr] at this
  exact ⟨by rw [hU]; exact this, r, hr, hU, by rw [hxr]; rfl⟩

/-- At or after the last absolute instant the last entry is selected and the
answer is not definitive. -/
theorem abs_blocked_past_last (raw : absList) (macs : List String) (tz : Location)
    (when : Time) (hne : raw ≠ [])
    (hdistinct : raw.Pairwise (fun a b => a.UnixTime ≠ b.UnixTime))
    (hafter : ∀ a ∈ raw, Time.zero.ns < a.UnixTime * 1000000000)
    (hrep : ∀ a ∈ raw, a.UnixTime + 62135596800 ≤ 9223372036854775807)
    (hnonempty : ∀ a ∈ raw, a.Indexes ≠ [])
    (hpast : ∀ a ∈ raw, a.UnixTime * 1000000000 ≤ when.ns) :
    ∃ a ∈ raw, ∃ t, (∀ b ∈ raw, b.UnixTime ≤ a.UnixTime) ∧
      t.ns = a.UnixTime * 1000000000 ∧
      (absList.finalized raw macs tz).Blocked when = .ok (t, resolve macs a.Indexes, false) := by
  have hsorted := finalized_abs_sorted_strict raw macs tz hdistinct
  have hlive := finalized_abs_live raw macs tz hnonempty hafter hrep
  have hmem : ∀ b ∈ raw, b.resolved macs tz ∈ absList.finalized raw macs tz :=
    fun b hb => (mem_absList_finalized _ _ _ _).mpr ⟨b, hb, rfl⟩
  generalize absList.finalized raw macs tz = L at *
  have hbound : ∀ x ∈ L, Time.zero.ns < x.time.ns ∧ x.time.ns ≤ when.ns := by
    intro x hx
    obtain ⟨h1, r, hr, h2, _⟩ := hlive x hx
    have := hafter r hr
    have := hpast r hr
    rw [h1, h2]
    omega
  rcases abs_query_spec L when with ⟨_, _, h3⟩ | ⟨pre, e, post, h1, h2, _, _, _, _, h7⟩
  · exfalso
    cases raw with
    | nil => exact hne rfl
    | cons b rest =>
      have hb := hmem b (List.mem_cons_self _ _)
      exact h3 _ hb (hbound _ hb)
  · have he : e ∈ L := by rw [h1]; simp
    obtain ⟨het, r, hr, hU, hm⟩ := hlive e he
    have hpostnil : post = [] := by
      cases post with
      | nil => rfl
      | cons x rest =>
        exfalso
        have hx : x ∈ L := by rw [h1]; simp
        obtain ⟨hxt, _⟩ := hlive x hx
        rw [h1] at hsorted
        obtain ⟨_, hs2, _⟩ := List.pairwise_append.mp hsorted
        have hlt := (List.pairwise_cons.mp hs2).1 x (List.mem_cons_self _ _)
        exact h7 x (List.mem_cons_self _ _) ⟨by omega, (hbound x hx).2⟩
    subst hpostnil
    refine ⟨r, hr, e.time, ?_, by rw [het, hU], ?_⟩
    · intro b hb
      have hbL := hmem b hb
      rw [h1] at hbL hsorted
      have hbU : (b.resolved macs tz).UnixTime = b.UnixTime := rfl
      rcases List.mem_append.mp hbL with h | h
      · obtain ⟨_, _, hs3⟩ := List.pairwise_append.mp hsorted
        have := hs3 _ h e (List.mem_singleton_self _)
        omega
      · rw [List.mem_singleton] at h
        rw [← hU, ← h, hbU]
    · rw [h2, hm]
      simp

/-- While an absolute instant is still ahead, `absList.Until` returns the
smallest absolute instant later than `when`. -/
theorem abs_until_next (raw : absList) (macs : List String) (tz : Location) (when : Time)
    (hdistinct : raw.Pairwise (fun a b => a.UnixTime ≠ b.UnixTime))
    (hafter : ∀ a ∈ raw, Time.zero.ns < a.UnixTime * 1000000000)
    (hrep : ∀ a ∈ raw, a.UnixTime + 62135596800 ≤ 9223372036854775807)
    (hnonempty : ∀ a ∈ raw, a.Indexes ≠ [])
    (hlater : ∃ a ∈ raw, when.ns < a.UnixTime * 1000000000) :
    ∃ a ∈ raw, ∃ u, (absList.finalized raw macs tz).Until when = .ok u ∧
      u.ns = a.UnixTime * 1000000000 ∧ when.ns < u.ns ∧ u.IsZero = false ∧
      ∀ b ∈ raw, when.ns < b.UnixTime * 1000000000 → a.UnixTime ≤ b.UnixTime := by
  have hsorted := finalized_abs_sorted_strict raw macs tz hdistinct
  have hlive := finalized_abs_live raw macs tz hnonempty hafter hrep
  have hmem : ∀ b ∈ raw, b.resolved macs tz ∈ absList.finalized raw macs tz :=
    fun b hb => (mem_absList_finalized _ _ _ _).mpr ⟨b, hb, rfl⟩
  generalize absList.finalized raw macs tz = L at *
  have hz : Time.zero.ns = -62135596800000000000 := rfl
  have hpos : ∀ x ∈ L, Time.zero.ns < x.time.ns := by
    intro x hx
    obtain ⟨h1, r, hr, h2, _⟩ := hlive x hx
    have := hafter r hr
    rw [h1, h2]
    omega
  have hnz : ∀ u : Time, Time.zero.ns < u.ns → u.IsZero = false := by
    intro u hu
    unfold Time.IsZero
    rw [decide_eq_false_iff_not]
    omega
  obtain ⟨c, hc, hcl⟩ := hlater
  have hcL := hmem c hc
  have hct : (c.resolved macs tz).time.ns = c.UnixTime * 1000000000 := (hlive _ hcL).1
  rcases abs_query_spec L when with ⟨_, h2, h3⟩ | ⟨pre, e, post, h1, _, h3, _, h5, _, h7⟩
  · cases L with
    | nil => cases hcL
    | cons x rest =>
      have hx : x ∈ x :: rest := List.mem_cons_self _ _
      obtain ⟨hxt, r, hr, hU, _⟩ := hlive x hx
      have hxw : when.ns < x.time.ns := by
        have := h3 x hx
        have := hpos x hx
        omega
      refine ⟨r, hr, x.time, h2, by rw [hxt, hU], hxw, hnz _ (hpos x hx), ?_⟩
      intro b hb _
      have hbL := hmem b hb
      have hbU : (b.resolved macs tz).UnixTime = b.UnixTime := rfl
      rcases List.mem_cons.mp hbL with h | h
      · rw [← hU, ← h, hbU]
      · have := (List.pairwise_cons.mp hsorted).1 _ h
        omega
  · have he : e ∈ L := by rw [h1]; simp
    obtain ⟨het, _⟩ := hlive e he
    rw [h1] at hsorted
    obtain ⟨_, hs2, hs3⟩ := List.pairwise_append.mp hsorted
    obtain ⟨hs4, hs5⟩ := List.pairwise_cons.mp hs2
    have hpostw : ∀ x ∈ post, when.ns < x.time.ns := by
      intro x hx
      have hxL : x ∈ L := by rw [h1]; simp [hx]
      have hxt := (hlive x hxL).1
      have := hs4 x hx
      have := h7 x hx
      omega
    have hprew : ∀ x ∈ pre, x.time.ns ≤ when.ns := by
      intro x hx
      have hxL : x ∈ L := by rw [h1]; simp [hx]
      have hxt := (hlive x hxL).1
      have := hs3 x hx e (List.mem_cons_self _ _)
      omega
    cases post with
    | nil =>
      exfalso
      rw [h1] at hcL
      rcases List.mem_append.mp hcL with h | h
      · have := hprew _ h
        omega
      · rw [List.mem_singleton] at h
        rw [h] at hct
        omega
    | cons x rest =>
      have hx : x ∈ L := by rw [h1]; simp
      obtain ⟨hxt, r, hr, hU, _⟩ := hlive x hx
      refine ⟨r, hr, x.time, h3, by rw [hxt, hU], hpostw x (List.mem_cons_self _ _),
        hnz _ (hpos x hx), ?_⟩
      intro b hb hbw
      have hbL := hmem b hb
      have hbU : (b.resolved macs tz).UnixTime = b.UnixTime := rfl
      have hbt : (b.resolved macs tz).time.ns = b.UnixTime * 1000000000 := (hlive _ hbL).1
      rw [h1] at hbL
      rcases List.mem_append.mp hbL with h | h
      · have := hprew _ h
        omega
      · rcases List.mem_cons.mp h with h | h
        · rw [h] at hbt
          omega
        · rcases List.mem_cons.mp h with h | h
          · rw [← hU, ← h, hbU]
          · have := (List.pairwise_cons.mp hs5).1 _ h
            omega

/-! ## Instants that compare alike with every entry -/

theorem abs_findIndexLoop_congr (t1 t2 : Time) (l : List absEntry) (i : Int) (at0 : Time)
    (idx : Int) (hat : Time.zero.ns ≤ at0.ns)
    (h : ∀ e ∈ l, Time.zero.ns < e.time.ns → (e.time.ns ≤ t1.ns ↔ e.time.ns ≤ t2.ns)) :
    absList.findIndexLoop t1 l i at0 idx = absList.findIndexLoop t2 l i at0 idx := by
  induction l generalizing i at0 idx with
  | nil => rfl
  | cons e0 rest ih =>
    have hrest : ∀ e ∈ rest, Time.zero.ns < e.time.ns →
        (e.time.ns ≤ t1.ns ↔ e.time.ns ≤ t2.ns) :=
      fun e he => h e (List.mem_cons_of_mem _ he)
    unfold absList.findIndexLoop
    by_cases hpos : Time.zero.ns < e0.time.ns
    · have h0 := h e0 (List.mem_cons_self _ _) hpos
      have hb : t1.Before e0.time = t2.Before e0.time := by
        unfold Time.Before
        by_cases hc : e0.time.ns ≤ t1.ns
        · have := h0.mp hc
          rw [decide_eq_false (by omega), decide_eq_false (by omega)]
        · have : ¬ e0.time.ns ≤ t2.ns := fun h2 => hc (h0.mpr h2)
          rw [decide_eq_true (by omega), decide_eq_true (by omega)]
      rw [hb, ih _ _ _ (le_of_lt hpos) hrest, ih _ _ _ hat hrest]
    · have ha : e0.time.After at0 = false := by
        unfold Time.After
        rw [decide_eq_false_iff_not]
        omega
      simp only [ha, Bool.false_and, Bool.false_eq_true, if_false]
      exact ih _ _ _ hat hrest

theorem abs_Blocked_congr (L : absList) (t1 t2 : Time)
    (h : ∀ e ∈ L, Time.zero.ns < e.time.ns → (e.time.ns ≤ t1.ns ↔ e.time.ns ≤ t2.ns)) :
    L.Blocked t1 = L.Blocked t2 := by
  have hfi : L.findIndex t1 = L.findIndex t2 :=
    abs_findIndexLoop_congr t1 t2 L 0 _ _ (le_refl _) h
  unfold absList.Blocked
  rw [hfi]

theorem weekly_findIndexLoop_congr (off1 off2 : Int) (l : List weeklyEntry) (i idx : Int)
    (h : ∀ e ∈ l, (e.Time ≤ off1 ↔ e.Time ≤ off2)) :
    weeklyList.findIndexLoop off1 l i idx = weeklyList.findIndexLoop off2 l i idx := by
  induction l generalizing i idx with
  | nil => rfl
  | cons e0 rest ih =>
    have h0 := h e0 (List.mem_cons_self _ _)
    unfold weeklyList.findIndexLoop
    rw [ih _ _ (fun e he => h e (List.mem_cons_of_mem _ he)),
      ih _ _ (fun e he => h e (List.mem_cons_of_mem _ he))]
    by_cases hc : e0.Time ≤ off1
    · rw [if_pos hc, if_pos (h0.mp hc)]
    · rw [if_neg hc, if_neg (fun h2 => hc (h0.mpr h2))]

theorem ToTime_eq (w1 w2 : Int) (t1 t2 : Time) (hloc : t1.loc = t2.loc)
    (h : t1.Unix - ToWeeklyOffset t1 + w1 = t2.Unix - ToWeeklyOffset t2 + w2) :
    weeklyOffset.ToTime w1 t1 = weeklyOffset.ToTime w2 t2 := by
  have h1 := ToTime_ns w1 t1
  have h2 := ToTime_ns w2 t2
  have l1 : (weeklyOffset.ToTime w1 t1).loc = t1.loc := rfl
  have l2 : (weeklyOffset.ToTime w2 t2).loc = t2.loc := rfl
  cases ha : weeklyOffset.ToTime w1 t1 with
  | mk n1 c1 =>
    cases hb : weeklyOffset.ToTime w2 t2 with
    | mk n2 c2 =>
      rw [ha] at h1 l1
      rw [hb] at h2 l2
      simp only at h1 l1 h2 l2
      rw [h1, h2, l1, l2, h, hloc]

/-- A list splits in only one way into entries, an entry with the property,
and entries without it. -/
theorem split_unique {α : Type} (p : α → Prop) (A B C D : List α) (a c : α)
    (h : A ++ a :: B = C ++ c :: D) (ha : p a) (hB : ∀ b ∈ B, ¬ p b)
    (hc : p c) (hD : ∀ d ∈ D, ¬ p d) : a = c ∧ B = D := by
  induction A generalizing C with
  | nil =>
    cases C with
    | nil =>
      simp only [List.nil_append] at h
      injection h with h1 h2
      exact ⟨h1, h2⟩
    | cons c0 C1 =>
      exfalso
      simp only [List.nil_append, List.cons_append] at h
      injection h with _ h2
      exact hB c (by rw [h2]; simp) hc
  | cons a0 A1 ih =>
    cases C with
    | nil =>
      exfalso
      simp only [List.nil_append, List.cons_append] at h
      injection h with _ h2
      exact hD a (by rw [← h2]; simp) ha
    | cons c0 C1 =>
      simp only [List.cons_append] at h
      injection h with _ h2
      exact ih C1 h2

/-- The finalized weekly list with offsets inside the week, with its last
sorted entry named. -/
theorem finalized_weekly_inrange_ends (raw : weeklyList) (macs : List String) (hne : raw ≠ [])
    (hrange : ∀ e ∈ raw, 0 ≤ e.Time ∧ e.Time < 604800) :
    ∃ rf rl S1, rf ∈ raw ∧ rl ∈ raw ∧
      weeklyList.resolvedSorted raw macs = S1 ++ [rl.resolved macs] ∧
      weeklyList.padded (weeklyList.resolvedSorted raw macs) =
        ({ rl.resolved macs with Time := rl.Time - 604800 } ::
          weeklyList.resolvedSorted raw macs) ++
          [{ rf.resolved macs with Time := rf.Time + 604800 }] := by
  have hS := resolvedSorted_ne_nil raw macs hne
  obtain ⟨first, last, hf, hl, _, hlast, hp⟩ := padded_eq _ hS
  obtain ⟨rf, hrf, hfr⟩ := (mem_resolvedSorted _ _ _).mp hf
  obtain ⟨rl, hrl, hlr⟩ := (mem_resolvedSorted _ _ _).mp hl
  have h1 := hrange rf hrf
  have h2 := hrange rl hrl
  refine ⟨rf, rl, (weeklyList.resolvedSorted raw macs).dropLast, hrf, hrl, ?_, ?_⟩
  · rw [← hlr]
    exact (List.dropLast_append_getLast? last hlast).symm
  · rw [hp, hfr, hlr]
    have e1 : wrapInt64 ((rl.resolved macs).Time - oneWeek) = rl.Time - 604800 := by
      have : (rl.resolved macs).Time = rl.Time := rfl
      rw [this, wrapInt64_id _ (by unfold oneWeek; omega) (by unfold oneWeek; omega)]
      unfold oneWeek; omega
    have e2 : wrapInt64 ((rf.resolved macs).Time + oneWeek) = rf.Time + 604800 := by
      have : (rf.resolved macs).Time = rf.Time := rfl
      rw [this, wrapInt64_id _ (by unfold oneWeek; omega) (by unfold oneWeek; omega)]
      unfold oneWeek; omega
    rw [e1, e2]

/-- With no weekly occurrence in `(t1, t2]`, the weekly list gives one answer
at `t1` and `t2`, also when a Sunday 00:00:00 lies between them: there the
last entry of the old week and its copy at the head of the list stand for the
same instant and the same devices. -/
theorem weekly_blocked_constant (raw : weeklyList) (macs : List String) (t1 t2 : Time)
    (hu1 : t1.loc = UTC) (hu2 : t2.loc = UTC) (hle : t1.ns ≤ t2.ns)
    (hrange : ∀ e ∈ raw, 0 ≤ e.Time ∧ e.Time < 604800)
    (hno : ∀ r, weeklyOccurrence raw r → ¬ (t1.ns < r * 1000000000 ∧ r * 1000000000 ≤ t2.ns)) :
    (weeklyList.padded (weeklyList.resolvedSorted raw macs)).Blocked t1 =
      (weeklyList.padded (weeklyList.resolvedSorted raw macs)).Blocked t2 := by
  by_cases hne : raw = []
  · subst hne; rfl
  obtain ⟨k1, hk1⟩ := weekStart_utc t1 hu1
  obtain ⟨k2, hk2⟩ := weekStart_utc t2 hu2
  have ho1 := ToWeeklyOffset_range t1
  have ho2 := ToWeeklyOffset_range t2
  have hU : t1.Unix ≤ t2.Unix := by
    unfold Time.Unix
    omega
  have hno1 : ∀ r, weeklyOccurrence raw r → ¬ (t1.Unix < r ∧ r ≤ t2.Unix) := by
    intro r hr hc
    exact hno r hr ⟨(ns_lt_sec_iff t1 r).mpr hc.1, (sec_le_ns_iff t2 r).mpr hc.2⟩
  have hocc : ∀ (r : weeklyEntry), r ∈ raw → ∀ k : Int,
      ¬ (t1.Unix < 259200 + k * 604800 + r.Time ∧ 259200 + k * 604800 + r.Time ≤ t2.Unix) :=
    fun r hr k => hno1 _ ⟨r, hr, k, rfl⟩
  generalize hFdef : weeklyList.padded (weeklyList.resolvedSorted raw macs) = F
  have hFmem : ∀ y ∈ F, ∃ r ∈ raw, ∃ j : Int, y.Time = r.Time + j * 604800 := by
    intro y hy
    rw [← hFdef] at hy
    obtain ⟨r, hr, j, hj, _⟩ := mem_padded_raw raw macs hne hrange y hy
    exact ⟨r, hr, j, hj⟩
  have hloc : t1.loc = t2.loc := by rw [hu1, hu2]
  rcases lt_trichotomy k1 k2 with hk | hk | hk
  · -- a week boundary lies between the two instants
    obtain ⟨rf, rl, S1, hrf, hrl, hSeq, hpe⟩ := finalized_weekly_inrange_ends raw macs hne hrange
    rw [hFdef] at hpe
    have hrlr := hrange rl hrl
    have hrfr := hrange rf hrf
    have hk21 : k2 = k1 + 1 := by
      have := hocc rl hrl (k1 + 1)
      omega
    have hS1 : ∀ y ∈ weeklyList.resolvedSorted raw macs, y.Time ≤ ToWeeklyOffset t1 := by
      intro y hy
      obtain ⟨r, hr, hyr⟩ := (mem_resolvedSorted _ _ _).mp hy
      have ht : y.Time = r.Time := by rw [hyr]; rfl
      have := hocc r hr k1
      have := hrange r hr
      omega
    have hS2 : ∀ y ∈ weeklyList.resolvedSorted raw macs, ToWeeklyOffset t2 < y.Time := by
      intro y hy
      obtain ⟨r, hr, hyr⟩ := (mem_resolvedSorted _ _ _).mp hy
      have ht : y.Time = r.Time := by rw [hyr]; rfl
      have := hocc r hr k2
      have := hrange r hr
      omega
    have hFne : F ≠ [] := by rw [hpe]; simp
    have hprior1 : ({ rl.resolved macs with Time := rl.Time - 604800 } : weeklyEntry) ∈ F := by
      rw [hpe]; simp
    have hpt : ({ rl.resolved macs with Time := rl.Time - 604800 } : weeklyEntry).Time
        = rl.Time - 604800 := rfl
    have hnt : ({ rf.resolved macs with Time := rf.Time + 604800 } : weeklyEntry).Time
        = rf.Time + 604800 := rfl
    have hlt : (rl.resolved macs).Time = rl.Time := rfl
    -- the answer at `t1` is the last sorted entry
    have hB1 : F.Blocked t1 = .ok (weeklyOffset.ToTime rl.Time t1, resolve macs rl.Indexes) := by
      rcases weekly_query_spec F t1 hFne with
        ⟨_, _, _, hall, _, _⟩ | ⟨pre, e, post, hsplit, he, hpost, hB, _⟩
      · exfalso
        have := hall _ hprior1
        omega
      · have hF2 : F = ({ rl.resolved macs with Time := rl.Time - 604800 } :: S1) ++
            (rl.resolved macs) ::
              [({ rf.resolved macs with Time := rf.Time + 604800 } : weeklyEntry)] := by
          rw [hpe, hSeq]; simp
        rw [hF2] at hsplit
        have hu := split_unique (fun y : weeklyEntry => y.Time ≤ ToWeeklyOffset t1)
          _ _ _ _ _ _ hsplit.symm he
          (fun b hb => by
            have := hpost b hb
            show ¬ (b.Time ≤ ToWeeklyOffset t1)
            omega)
          (hS1 _ (by rw [hSeq]; simp))
          (fun d hd => by
            rw [List.mem_singleton] at hd
            subst hd
            show ¬ (rf.Time + 604800 ≤ ToWeeklyOffset t1)
            omega)
        rw [hB, hu.1]
        rfl
    -- the answer at `t2` is its copy at the head of the list
    have hB2 : F.Blocked t2 =
        .ok (weeklyOffset.ToTime (rl.Time - 604800) t2, resolve macs rl.Indexes) := by
      rcases weekly_query_spec F t2 hFne with
        ⟨_, _, _, hall, _, _⟩ | ⟨pre, e, post, hsplit, he, hpost, hB, _⟩
      · exfalso
        have := hall _ hprior1
        omega
      · have hF2 : F = [] ++ ({ rl.resolved macs with Time := rl.Time - 604800 } : weeklyEntry) ::
            (weeklyList.resolvedSorted raw macs ++
              [({ rf.resolved macs with Time := rf.Time + 604800 } : weeklyEntry)]) := by
          rw [hpe]; simp
        rw [hF2] at hsplit
        have hu := split_unique (fun y : weeklyEntry => y.Time ≤ ToWeeklyOffset t2)
          _ _ _ _ _ _ hsplit.symm he
          (fun b hb => by
            have := hpost b hb
            show ¬ (b.Time ≤ ToWeeklyOffset t2)
            omega)
          (by
            show rl.Time - 604800 ≤ ToWeeklyOffset t2
            omega)
          (fun d hd => by
            rcases List.mem_append.mp hd with h | h
            · have := hS2 d h
              show ¬ (d.Time ≤ ToWeeklyOffset t2)
              omega
            · rw [List.mem_singleton] at h
              subst h
              show ¬ (rf.Time + 604800 ≤ ToWeeklyOffset t2)
              omega)
        rw [hB, hu.1]
        rfl
    rw [hB1, hB2, ToTime_eq rl.Time (rl.Time - 604800) t1 t2 hloc (by omega)]
  · -- both instants lie in one week
    subst hk
    have hcongr : ∀ y ∈ F, (y.Time ≤ ToWeeklyOffset t1 ↔ y.Time ≤ ToWeeklyOffset t2) := by
      intro y hy
      obtain ⟨r, hr, j, hj⟩ := hFmem y hy
      have := hocc r hr (k1 + j)
      constructor <;> intro h <;> omega
    have hfi : F.findIndex t1 = F.findIndex t2 :=
      weekly_findIndexLoop_congr _ _ F 0 0 hcongr
    have hT : ∀ w : Int, weeklyOffset.ToTime w t1 = weeklyOffset.ToTime w t2 :=
      fun w => ToTime_eq w w t1 t2 hloc (by omega)
    unfold weeklyList.Blocked
    simp only [hfi, hT]
  · omega

/-- With no absolute instant and no weekly occurrence in `(t1, t2]`, `Blocked`
gives one answer at `t1` and at `t2`.  The second counts of the absolute
entries are `int64` values; an entry with an empty index list has the zero
value in its `time` field, as the decoder leaves it. -/
theorem blocked_constant (tzdb : String → Option Location) (raw s : schedule) (t1 t2 : Time)
    (hfin : raw.Finalize tzdb = .ok s) (hu1 : t1.loc = UTC) (hu2 : t2.loc = UTC)
    (hle : t1.ns ≤ t2.ns)
    (hrange : ∀ e ∈ raw.Weekly, 0 ≤ e.Time ∧ e.Time < 604800)
    (hint64 : ∀ a ∈ raw.Absolute,
      -9223372036854775808 ≤ a.UnixTime ∧ a.UnixTime ≤ 9223372036854775807)
    (hfresh : ∀ a ∈ raw.Absolute, a.Indexes = [] → a.time = Time.zero)
    (hnoabs : ∀ a ∈ raw.Absolute,
      ¬ (t1.ns < a.UnixTime * 1000000000 ∧ a.UnixTime * 1000000000 ≤ t2.ns))
    (hnoweekly : ∀ r, weeklyOccurrence raw.Weekly r →
      ¬ (t1.ns < r * 1000000000 ∧ r * 1000000000 ≤ t2.ns)) :
    Schedule.Blocked ⟨s⟩ t1 = Schedule.Blocked ⟨s⟩ t2 := by
  obtain ⟨tz1, _, _, _, _, hsa, hsw, _⟩ := schedule_Finalize_ok tzdb raw s hfin
  have habs : s.Absolute.Blocked t1 = s.Absolute.Blocked t2 := by
    rw [hsa]
    apply abs_Blocked_congr
    intro e he hpos
    obtain ⟨r, hr, her⟩ := (mem_absList_finalized _ _ _ _).mp he
    rw [her] at hpos ⊢
    by_cases hi : r.Indexes = []
    · exfalso
      rw [resolved_time_fresh r _ _ hi, hfresh r hr hi] at hpos
      omega
    · have ht := resolved_time_selectable r raw.MACs tz1 hi (hint64 r hr) hpos
      have := hnoabs r hr
      rw [ht]
      constructor <;> intro h <;> omega
  have hweekly : s.Weekly.Blocked t1 = s.Weekly.Blocked t2 := by
    rw [hsw]
    exact weekly_blocked_constant raw.Weekly raw.MACs t1 t2 hu1 hu2 hle hrange hnoweekly
  unfold Schedule.Blocked
  simp only [habs, hweekly]

/-! ## The precedence between the two lists -/

/-- The scan and `absList.Blocked` together: either the scan returns -1 and
the answer is "none", or it returns the position of an entry `e` and the answer
is `e` with `definitive` set exactly when entries follow it. -/
theorem abs_blocked_index (L : absList) (when : Time) :
    (L.findIndex when = -1 ∧ L.Blocked when = .ok (Time.zero, [], false) ∧
        ∀ e ∈ L, ¬ (Time.zero.ns < e.time.ns ∧ e.time.ns ≤ when.ns)) ∨
    (∃ pre e post, L = pre ++ e :: post ∧ L.findIndex when = (pre.length : Int) ∧
        sliceAt L (L.findIndex when) = .ok e ∧
        L.Blocked when = .ok (e.time, e.macs, decide (post ≠ [])) ∧
        Time.zero.ns < e.time.ns ∧ e.time.ns ≤ when.ns ∧
        (∀ x ∈ pre, x.time.ns < e.time.ns ∨ when.ns < x.time.ns) ∧
        (∀ x ∈ post, ¬ (e.time.ns < x.time.ns ∧ x.time.ns ≤ when.ns))) := by
  rcases abs_findIndexLoop_spec when L 0 Time.zero (-1) with
    ⟨h1, h2⟩ | ⟨pre, e, post, h1, h2, h3, h4, h5, h6⟩
  · left
    have hfi : L.findIndex when = -1 := h1
    refine ⟨hfi, ?_, h2⟩
    unfold absList.Blocked
    simp only [hfi]
    rfl
  · right
    have hfi : L.findIndex when = (pre.length : Int) := by
      show absList.findIndexLoop when L 0 Time.zero (-1) = _
      rw [h2]; omega
    refine ⟨pre, e, post, h1, hfi, ?_, ?_, h3, h4, h5, h6⟩
    · rw [hfi, h1, sliceAt_append_cons]
    · unfold absList.Blocked
      simp only [hfi]
      have hpos : (pre.length : Int) > -1 := by omega
      rw [if_pos hpos]
      subst h1
      rw [sliceAt_append_cons]
      simp only [List.length_append, List.length_cons]
      congr 3
      cases post with
      | nil => simp
      | cons x rest => simp; omega

/-- The scan and `weeklyList.Blocked` together on a non-empty list: the answer
is read from the entry at the position the scan returns. -/
theorem weekly_blocked_index (F : weeklyList) (when : Time) (hF : F ≠ []) :
    ∃ e, sliceAt F (F.findIndex when) = .ok e ∧
      F.Blocked when = .ok (weeklyOffset.ToTime e.Time when, e.macs) := by
  rcases weekly_findIndexLoop_spec (ToWeeklyOffset when) F 0 0 with
    ⟨h1, _⟩ | ⟨pre, e, post, h1, h2, _, _⟩
  · have hfi : F.findIndex when = 0 := h1
    cases F with
    | nil => exact absurd rfl hF
    | cons a rest =>
      have hsl : sliceAt (a :: rest) 0 = .ok a := by
        have := sliceAt_append_cons [] a rest
        simpa using this
      refine ⟨a, by rw [hfi]; exact hsl, ?_⟩
      unfold weeklyList.Blocked
      simp only [hfi, hsl, List.length_cons]
      rfl
  · have hfi : F.findIndex when = (pre.length : Int) := by
      show weeklyList.findIndexLoop (ToWeeklyOffset when) F 0 0 = _
      rw [h2]; omega
    have hsl : sliceAt F (pre.length : Int) = .ok e := by rw [h1, sliceAt_append_cons]
    have hlen : ¬ (F.length = 0) := fun h => hF (List.length_eq_zero.mp h)
    refine ⟨e, by rw [hfi]; exact hsl, ?_⟩
    unfold weeklyList.Blocked
    rw [if_neg hlen]
    simp only [hfi, hsl]

/-- The precedence rule of `Schedule.Blocked`: the absolute answer when it is
definitive or when the weekly answer dates from before it, the weekly answer
otherwise. -/
theorem Schedule_Blocked_precedence (s : Schedule) (when : Time) (absAt weeklyAt : Time)
    (absBlocked weeklyBlocked : List String) (definitive : Bool)
    (hA : s.raw.Absolute.Blocked when = .ok (absAt, absBlocked, definitive))
    (hW : s.raw.Weekly.Blocked when = .ok (weeklyAt, weeklyBlocked)) :
    s.Blocked when =
      .ok (if definitive = true ∨ weeklyAt.ns < absAt.ns then absBlocked else weeklyBlocked) := by
  unfold Schedule.Blocked
  rw [hA]
  simp only
  cases definitive with
  | true => simp
  | false =>
    rw [hW]
    simp only [Bool.false_eq_true, if_false, false_or, Time.Before, decide_eq_true_eq]
    split <;> rfl

/-! # The claims -/

/-- C1 (code defect): `Until` does not bound the interval in which `Blocked` is
constant.  Before the first absolute entry the weekly list governs `Blocked`,
but `Until` returns the first absolute instant: with an absolute entry at
864030 and weekly entries at offsets 23 and 24, `Until(864000)` is 864030
(non-zero) while `Blocked` already changes at 864023. -/
theorem C1_until_skips_weekly_change_before_first_absolute :
    untilOf lateAbsolute (utc 864000) = .ok (utc 864030) ∧
      (utc 864030).IsZero = false ∧
      (utc 864000).ns ≤ (utc 864023).ns ∧ (utc 864023).ns < (utc 864030).ns ∧
      blockedOf lateAbsolute (utc 864000) = .ok ["22:33:44:55:66:aa"] ∧
      blockedOf lateAbsolute (utc 864023) = .ok ["11:22:33:44:55:66"] := by
  decide

/-- C2 (code defect): an index equal to the length of the device table passes
the bound check `idx > len(macs)` of both entry `Finalize` methods, and the read
`macs[idx]` stops with an index-out-of-range panic; no `ErrInvalidInput` is
returned. -/
theorem C2_index_equal_to_length_panics (macs : List String) (tz : Location) (U T : Int) :
    absEntry.Finalize { Indexes := [(macs.length : Int)], UnixTime := U } macs tz
        = .error .indexOutOfRange ∧
      weeklyEntry.Finalize { Indexes := [(macs.length : Int)], Time := T } macs
        = .error .indexOutOfRange := by
  have h1 : ¬ ((macs.length : Int) < 0 ∨ (macs.length : Int) > (macs.length : Int)) := by omega
  constructor
  · unfold absEntry.Finalize absEntry.finalizeLoop
    simp only [h1, if_false, sliceAt_len]
  · unfold weeklyEntry.Finalize weeklyEntry.finalizeLoop
    simp only [h1, if_false, sliceAt_len]

/-- C4 (code defect): with two absolute entries at the same instant 10, the
scan selects the first of them and `Until` returns the time of the second:
`Until(20)` is the instant 10, which is not the zero time and not later than
20. -/
theorem C4_until_not_later_on_equal_instants :
    untilOf tiedAbsolute (utc 20) = .ok (utc 10) ∧
      (utc 10).IsZero = false ∧ ¬ ((utc 20).ns < (utc 10).ns) := by
  decide

/-- C9: an entry whose indexes are all positions of the device table is
finalized successfully, absolute or weekly, and its device list has one name
per index, in the order of the index list (`macs[Indexes[i]]` at position `i`,
repeated indexes giving repeated names).  `Blocked` on a finalized schedule
returns exactly this list of the governing entry: the entry at the position
the absolute scan returns when the absolute answer is definitive or the weekly
answer dates from before it, and otherwise the entry at the position the
weekly scan returns; with no such entry the list is empty.  In `TestSimple`
the absolute indexes `[2, 1]` give `[macs[2], macs[1]]` at 864010 and the
weekly indexes `[0]` give `[macs[0]]` at 864023. -/
theorem C9_finalize_resolves_indexes_in_order (macs : List String) (tz : Location)
    (a : absEntry) (w : weeklyEntry)
    (ha : indexesValid macs a.Indexes) (hw : indexesValid macs w.Indexes) :
    (∃ a1, a.Finalize macs tz = .ok a1 ∧ isResolutionOf macs a.Indexes a1.macs) ∧
    (∃ w1, w.Finalize macs = .ok w1 ∧ isResolutionOf macs w.Indexes w1.macs) ∧
    (∀ (tzdb : String → Option Location) (raw s : schedule) (when : Time),
      raw.Finalize tzdb = .ok s →
        ∃ (absAt : Time) (absBlocked : List String) (definitive : Bool) (weeklyAt : Time)
            (weeklyBlocked : List String),
          Schedule.Blocked ⟨s⟩ when =
            .ok (if definitive = true ∨ weeklyAt.ns < absAt.ns then absBlocked
              else weeklyBlocked) ∧
          (definitive = true ↔
            s.Absolute.findIndex when ≠ -1 ∧
              s.Absolute.findIndex when + 1 < (s.Absolute.length : Int)) ∧
          ((s.Absolute.findIndex when = -1 ∧ absAt = Time.zero ∧ absBlocked = []) ∨
            (s.Absolute.findIndex when ≠ -1 ∧
              ∃ e, sliceAt s.Absolute (s.Absolute.findIndex when) = .ok e ∧
                absAt = e.time ∧ absBlocked = e.macs ∧
                isResolutionOf raw.MACs e.Indexes absBlocked)) ∧
          ((s.Weekly = [] ∧ weeklyAt = Time.zero ∧ weeklyBlocked = []) ∨
            (s.Weekly ≠ [] ∧
              ∃ e, sliceAt s.Weekly (s.Weekly.findIndex when) = .ok e ∧
                weeklyAt = weeklyOffset.ToTime e.Time when ∧ weeklyBlocked = e.macs ∧
                isResolutionOf raw.MACs e.Indexes weeklyBlocked))) ∧
    blockedOf simple (utc 864010) = .ok ["33:44:55:66:aa:BB", "22:33:44:55:66:aa"] ∧
    blockedOf simple (utc 864023) = .ok ["11:22:33:44:55:66"] := by
  refine ⟨⟨a.resolved macs tz, (absEntry_Finalize_ok macs tz a _).mpr ⟨ha, rfl⟩,
      resolve_isResolutionOf macs _ ha⟩,
    ⟨w.resolved macs, (weeklyEntry_Finalize_ok macs w _).mpr ⟨hw, rfl⟩,
      resolve_isResolutionOf macs _ hw⟩, ?_, by decide, by decide⟩
  intro tzdb raw s when hfin
  obtain ⟨tz1, _, _, hva, hvw, hsa, hsw, _⟩ := schedule_Finalize_ok tzdb raw s hfin
  -- the absolute answer
  have habs : ∃ (absAt : Time) (absBlocked : List String) (definitive : Bool),
      s.Absolute.Blocked when = .ok (absAt, absBlocked, definitive) ∧
      (definitive = true ↔
        s.Absolute.findIndex when ≠ -1 ∧
          s.Absolute.findIndex when + 1 < (s.Absolute.length : Int)) ∧
      ((s.Absolute.findIndex when = -1 ∧ absAt = Time.zero ∧ absBlocked = []) ∨
        (s.Absolute.findIndex when ≠ -1 ∧
          ∃ e, sliceAt s.Absolute (s.Absolute.findIndex when) = .ok e ∧
            absAt = e.time ∧ absBlocked = e.macs ∧
            isResolutionOf raw.MACs e.Indexes absBlocked)) := by
    rcases abs_blocked_index s.Absolute when with
      ⟨hfi, hB, _⟩ | ⟨pre, e, post, hsplit, hfi, hsl, hB, _, _, _, _⟩
    · refine ⟨_, _, _, hB, ?_, Or.inl ⟨hfi, rfl, rfl⟩⟩
      constructor
      · intro h; cases h
      · rintro ⟨h, _⟩; exact absurd hfi h
    · refine ⟨_, _, _, hB, ?_, Or.inr ⟨by omega, e, hsl, rfl, rfl, ?_⟩⟩
      · have hlen : (s.Absolute.length : Int) = pre.length + 1 + post.length := by
          rw [hsplit]
          simp only [List.length_append, List.length_cons]
          push_cast
          omega
        have hpost : post ≠ [] ↔ 0 < post.length := by
          cases post with
          | nil => simp
          | cons x rest => simp
        rw [decide_eq_true_eq, hfi, hlen, hpost]
        constructor
        · intro h
          exact ⟨by omega, by omega⟩
        · rintro ⟨_, h⟩
          omega
      · have he : e ∈ absList.finalized raw.Absolute raw.MACs tz1 := by
          rw [← hsa, hsplit]; simp
        obtain ⟨r0, hr0, heq⟩ := (mem_absList_finalized _ _ _ _).mp he
        rw [heq]
        exact resolve_isResolutionOf _ _ (hva r0 hr0)
  -- the weekly answer
  have hweekly : ∃ (weeklyAt : Time) (weeklyBlocked : List String),
      s.Weekly.Blocked when = .ok (weeklyAt, weeklyBlocked) ∧
      ((s.Weekly = [] ∧ weeklyAt = Time.zero ∧ weeklyBlocked = []) ∨
        (s.Weekly ≠ [] ∧
          ∃ e, sliceAt s.Weekly (s.Weekly.findIndex when) = .ok e ∧
            weeklyAt = weeklyOffset.ToTime e.Time when ∧ weeklyBlocked = e.macs ∧
            isResolutionOf raw.MACs e.Indexes weeklyBlocked)) := by
    by_cases hW : s.Weekly = []
    · refine ⟨Time.zero, [], ?_, Or.inl ⟨hW, rfl, rfl⟩⟩
      rw [hW]
      rfl
    · obtain ⟨e, hsl, hB⟩ := weekly_blocked_index s.Weekly when hW
      refine ⟨_, _, hB, Or.inr ⟨hW, e, hsl, rfl, rfl, ?_⟩⟩
      have hx1 : e ∈ weeklyList.padded (weeklyList.resolvedSorted raw.Weekly raw.MACs) := by
        rw [← hsw]; exact sliceAt_mem _ _ _ hsl
      obtain ⟨y, hy, hm, hi⟩ := mem_padded_macs _ _ hx1
      obtain ⟨r0, hr0, heq⟩ := (mem_resolvedSorted _ _ _).mp hy
      have hyi : y.Indexes = r0.Indexes := by rw [heq]; rfl
      have hym : y.macs = resolve raw.MACs r0.Indexes := by rw [heq]; rfl
      rw [hm, hi, hyi, hym]
      exact resolve_isResolutionOf _ _ (hvw r0 hr0)
  obtain ⟨absAt, absBlocked, definitive, hA, hdef, hAe⟩ := habs
  obtain ⟨weeklyAt, weeklyBlocked, hWB, hWe⟩ := hweekly
  exact ⟨absAt, absBlocked, definitive, weeklyAt, weeklyBlocked,
    Schedule_Blocked_precedence ⟨s⟩ when absAt weeklyAt absBlocked weeklyBlocked definitive hA hWB,
    hdef, hAe, hWe⟩

/-- Witness of C9 on the device table and the first entries of `TestSimple`. -/
theorem C9_finalize_resolves_indexes_in_order_witness :
    (∃ a1, absEntry.Finalize { Indexes := [2, 1], UnixTime := 864010 } simple.MACs UTC = .ok a1 ∧
      isResolutionOf simple.MACs [2, 1] a1.macs) ∧
    (∃ w1, weeklyEntry.Finalize { Indexes := [0, 0], Time := 23 } simple.MACs = .ok w1 ∧
      isResolutionOf simple.MACs [0, 0] w1.macs) :=
  have h := C9_finalize_resolves_indexes_in_order simple.MACs UTC
    { Indexes := [2, 1], UnixTime := 864010 } { Indexes := [0, 0], Time := 23 }
    (by intro idx hidx; simp at hidx; rcases hidx with h | h <;> subst h <;> decide)
    (by intro idx hidx; simp at hidx; subst hidx; decide)
  ⟨h.1, h.2.1⟩

/-- C10: a load whose candidate is rejected by `Finalize` leaves the state as
it was, so `Blocked` and `Until` answer as before at every instant; a load
whose candidate is accepted installs the finalized candidate, whatever the
previous state was. -/
theorem C10_decode_keeps_state_on_failure (decodeBytes : List UInt8 → Option schedule)
    (tzdb : String → Option Location) (s : Schedule) (input : List UInt8) (raw : schedule)
    (hdec : decodeBytes input = some raw) :
    (∀ f, raw.Finalize tzdb = .error f →
      s.Decode decodeBytes tzdb input = (s, .error f) ∧
      ∀ when, (s.Decode decodeBytes tzdb input).1.Blocked when = s.Blocked when ∧
        (s.Decode decodeBytes tzdb input).1.Until when = s.Until when) ∧
    (∀ raw1, raw.Finalize tzdb = .ok raw1 →
      ∀ s0 : Schedule, s0.Decode decodeBytes tzdb input = (⟨raw1⟩, .ok ())) := by
  constructor
  · intro f hf
    have h : s.Decode decodeBytes tzdb input = (s, .error f) := by
      unfold Schedule.Decode
      rw [hdec]
      simp only [hf]
    refine ⟨h, ?_⟩
    intro when
    rw [h]
    exact ⟨rfl, rfl⟩
  · intro raw1 hok s0
    unfold Schedule.Decode
    rw [hdec]
    simp only [hok]

/-- Witness of C10: a candidate with a negative report rate is rejected and the
schedule of `TestSimple` stays installed. -/
theorem C10_decode_keeps_state_on_failure_witness :
    Schedule.Decode (fun _ => some negativeRate) (fun _ => none) ⟨simple⟩ []
      = (⟨simple⟩, .error .ErrInvalidInput) :=
  ((C10_decode_keeps_state_on_failure (fun _ => some negativeRate) (fun _ => none)
    ⟨simple⟩ [] negativeRate rfl).1 .ErrInvalidInput (by decide)).1

/-- C3 (code defect): a schedule whose only weekly entry has the raw offset
-1 is accepted by `Finalize`; the copy appended "for next week" then has the
offset 604799, inside the week, and at Saturday 23:59:59 (second 863999) the
scan selects it: `weeklyList.Until` reads `list[3]` of a list of three entries
and panics, where `absList.Until` guards the same access with
`len(list) == index`. -/
theorem C3_until_panics_on_negative_offset :
    (negativeOffset.Finalize (fun _ => none)).toBool = true ∧
      (finalizedOf negativeOffset).Weekly.map (fun e => e.Time) = [-604801, -1, 604799] ∧
      ToWeeklyOffset (utc 863999) = 604799 ∧
      (finalizedOf negativeOffset).Weekly.findIndex (utc 863999) = 2 ∧
      (finalizedOf negativeOffset).Weekly.Until (utc 863999) = .error .indexOutOfRange ∧
      untilOf negativeOffset (utc 863999) = .error .indexOutOfRange := by
  decide

/-- On a finalized schedule whose raw weekly offsets are not negative and
small enough for a week to be added without overflow, `Blocked` and `Until` of
the schedule and of both lists return at every instant; no slice access is out
of range. -/
theorem queries_return_on_nonnegative_offsets (tzdb : String → Option Location) (raw s : schedule) (when : Time)
    (hfin : raw.Finalize tzdb = .ok s)
    (hoff : ∀ e ∈ raw.Weekly, 0 ≤ e.Time ∧ e.Time + 604800 ≤ 9223372036854775807) :
    (∃ r, Schedule.Blocked ⟨s⟩ when = .ok r) ∧ (∃ u, Schedule.Until ⟨s⟩ when = .ok u) ∧
      (∃ r, s.Absolute.Blocked when = .ok r) ∧ (∃ u, s.Absolute.Until when = .ok u) ∧
      (∃ r, s.Weekly.Blocked when = .ok r) ∧ (∃ u, s.Weekly.Until when = .ok u) := by
  obtain ⟨tz1, _, _, _, _, _, hsw, _⟩ := schedule_Finalize_ok tzdb raw s hfin
  have hwu : ∃ u, s.Weekly.Until when = .ok u := by
    by_cases hne : raw.Weekly = []
    · have : s.Weekly = [] := by rw [hsw, hne]; rfl
      rw [this]
      exact ⟨_, rfl⟩
    · obtain ⟨S, first, last, hS, hf, _, _, _, hp⟩ := finalized_weekly_shape raw.Weekly raw.MACs hne
      obtain ⟨r0, hr0, hfr⟩ := (mem_resolvedSorted _ _ _).mp (hS ▸ hf)
      have hft : first.Time = r0.Time := by rw [hfr]; rfl
      have hr := hoff r0 hr0
      have hrange := ToWeeklyOffset_range when
      have hnext : ToWeeklyOffset when <
          ({ first with Time := wrapInt64 (first.Time + oneWeek) } : weeklyEntry).Time := by
        show _ < wrapInt64 (first.Time + oneWeek)
        rw [wrapInt64_id _ (by unfold oneWeek; omega) (by unfold oneWeek; omega)]
        unfold oneWeek
        omega
      obtain ⟨x, _, _, hx⟩ := weekly_Until_ok s.Weekly _ _ when (by rw [hsw, ← hS, hp])
        (by simp) hnext
      exact ⟨_, hx⟩
  obtain ⟨r, hr, _⟩ := Schedule_Blocked_cases ⟨s⟩ when
  obtain ⟨u, hu, _⟩ := abs_Until_ok s.Absolute when
  refine ⟨⟨r, hr⟩, ?_, ?_, ⟨u, hu⟩, ?_, hwu⟩
  · unfold Schedule.Until
    simp only [hu]
    split
    · exact ⟨u, rfl⟩
    · exact hwu
  · rcases abs_query_spec s.Absolute when with ⟨h1, _, _⟩ | ⟨_, _, _, _, h2, _⟩
    · exact ⟨_, h1⟩
    · exact ⟨_, h2⟩
  · rcases weekly_Blocked_cases s.Weekly when with h | ⟨x, _, h⟩
    · exact ⟨_, h⟩
    · exact ⟨_, h⟩

/-- C7, counterexample: one second after the zero time (Monday
0001-01-01T00:00:01Z, weekly offset 86401) the only weekly entry, at offset
100000, has not yet occurred in the week, but its occurrence of the week
before lies before the zero time that `Blocked` uses for "no absolute entry":
the result is empty, not the entry's device list `["A"]`. -/
theorem C7_blocked_empty_in_first_week_of_year_one :
    (mondayWeekly.Finalize (fun _ => none)).toBool = true ∧
      ToWeeklyOffset (utc (-62135596799)) < 100000 ∧
      blockedOf mondayWeekly (utc (-62135596799)) = .ok [] ∧
      resolve mondayWeekly.MACs [0] = ["A"] := by
  decide

/-- C7, amended: with no absolute entry and raw weekly offsets in
`[0, 604800)`, at every instant at least one week after the zero time whose
weekly offset is below every raw weekly offset, `Blocked` returns the device
list of a weekly entry with the greatest raw offset. -/
theorem C7_wraparound_before_first_rule (tzdb : String → Option Location) (raw s : schedule)
    (when : Time) (hfin : raw.Finalize tzdb = .ok s)
    (habs : raw.Absolute = []) (hne : raw.Weekly ≠ [])
    (hrange : ∀ e ∈ raw.Weekly, 0 ≤ e.Time ∧ e.Time < 604800)
    (hbelow : ∀ e ∈ raw.Weekly, ToWeeklyOffset when < e.Time)
    (hlate : Time.zero.ns + 604800 * 1000000000 ≤ when.ns) :
    ∃ g ∈ raw.Weekly, (∀ e ∈ raw.Weekly, e.Time ≤ g.Time) ∧
      Schedule.Blocked ⟨s⟩ when = .ok (resolve raw.MACs g.Indexes) := by
  obtain ⟨tz1, _, _, _, _, hsa, hsw, _⟩ := schedule_Finalize_ok tzdb raw s hfin
  obtain ⟨rf, rl, hrf, hrl, hraw, hpe, _⟩ :=
    finalized_weekly_inrange raw.Weekly raw.MACs hne hrange
  obtain ⟨e, x, he, _, heo, _, _, _, hB, _⟩ :=
    weekly_inrange_query raw.Weekly raw.MACs when hne hrange
  have hprior : e = { rl.resolved raw.MACs with Time := rl.Time - 604800 } := by
    rw [hpe] at he
    rcases List.mem_append.mp he with h | h
    · rcases List.mem_cons.mp h with h | h
      · exact h
      · exfalso
        obtain ⟨r, hr, her⟩ := (mem_resolvedSorted _ _ _).mp h
        have := hbelow r hr
        have ht : e.Time = r.Time := by rw [her]; rfl
        omega
    · exfalso
      rw [List.mem_singleton] at h
      have := hbelow rf hrf
      have ht : e.Time = rf.Time + 604800 := by rw [h]
      omega
  refine ⟨rl, hrl, fun r hr => (hraw r hr).2, ?_⟩
  have hA : s.Absolute = [] := by rw [hsa, habs]; rfl
  unfold Schedule.Blocked
  simp only [hA, hsw, hB]
  have hab : absList.Blocked [] when = .ok (Time.zero, [], false) := rfl
  rw [hab]
  simp only [Bool.false_eq_true, if_false]
  have hnb : (weeklyOffset.ToTime e.Time when).Before Time.zero = false := by
    unfold Time.Before
    rw [decide_eq_false_iff_not, ToTime_ns]
    have ht : e.Time = rl.Time - 604800 := by rw [hprior]
    have h1 := hbelow rl hrl
    have h2 : Time.zero.ns = -62135596800000000000 := rfl
    have h3 : when.Unix = when.ns / 1000000000 := rfl
    omega
  rw [hnb]
  simp only [Bool.false_eq_true, if_false]
  rw [hprior]
  rfl

/-- Witness of C7: the schedule `mondayWeekly` asked at Sunday
1970-01-11T00:00:00Z. -/
theorem C7_wraparound_before_first_rule_witness :
    ∃ g ∈ mondayWeekly.Weekly, (∀ e ∈ mondayWeekly.Weekly, e.Time ≤ g.Time) ∧
      Schedule.Blocked
        ⟨match mondayWeekly.Finalize (fun _ => none) with | .ok s => s | .error _ => mondayWeekly⟩
        (utc 864000) = .ok (resolve mondayWeekly.MACs g.Indexes) :=
  C7_wraparound_before_first_rule (fun _ => none) mondayWeekly _ (utc 864000)
    (by decide) (by decide) (by decide) (by decide) (by decide) (by decide)

/-- The weekly part of `Until`, for a query time read in UTC: the earliest
weekly occurrence strictly after `when`. -/
theorem weekly_until_next_occurrence (raw : weeklyList) (macs : List String) (when : Time)
    (hutc : when.loc = UTC) (hne : raw ≠ [])
    (hrange : ∀ e ∈ raw, 0 ≤ e.Time ∧ e.Time < 604800) :
    ∃ u, (weeklyList.padded (weeklyList.resolvedSorted raw macs)).Until when = .ok u ∧
      u.ns = u.Unix * 1000000000 ∧ weeklyOccurrence raw u.Unix ∧ when.ns < u.ns ∧
      ∀ r, weeklyOccurrence raw r → when.Unix < r → u.Unix ≤ r := by
  obtain ⟨rf, rl, hrf, hrl, hraw, hpe, _⟩ := finalized_weekly_inrange raw macs hne hrange
  obtain ⟨e, x, _, hx, _, hxo, _, hmin, _, hU⟩ := weekly_inrange_query raw macs when hne hrange
  obtain ⟨k0, hk0⟩ := weekStart_utc when hutc
  have hoff := ToWeeklyOffset_range when
  have hns := ToTime_ns x.Time when
  have hunix : (weeklyOffset.ToTime x.Time when).Unix = when.Unix - ToWeeklyOffset when + x.Time := by
    unfold Time.Unix at *
    omega
  refine ⟨_, hU, by rw [hns, hunix], ?_, ?_, ?_⟩
  · obtain ⟨r, hr, j, hj, _⟩ := mem_padded_raw raw macs hne hrange x hx
    refine ⟨r, hr, k0 + j, ?_⟩
    rw [hunix]
    omega
  · rw [hns]
    have h3 : when.Unix = when.ns / 1000000000 := rfl
    omega
  · rintro r ⟨y, hy, k, hk⟩ hlt
    rw [hunix]
    have hyr := hrange y hy
    have hnext : ({ rf.resolved macs with Time := rf.Time + 604800 } : weeklyEntry) ∈
        weeklyList.padded (weeklyList.resolvedSorted raw macs) := by rw [hpe]; simp
    have hself : y.resolved macs ∈ weeklyList.padded (weeklyList.resolvedSorted raw macs) := by
      rw [hpe]
      have := (mem_resolvedSorted raw macs _).mpr ⟨y, hy, rfl⟩
      simp [this]
    have hfy := (hraw y hy).1
    have hf := hrange rf hrf
    have ht1 : ({ rf.resolved macs with Time := rf.Time + 604800 } : weeklyEntry).Time
        = rf.Time + 604800 := rfl
    have ht2 : (y.resolved macs).Time = y.Time := rfl
    have hm1 := hmin _ hnext
    have hm2 := hmin _ hself
    rw [ht1] at hm1
    rw [ht2] at hm2
    rcases lt_trichotomy k k0 with hk1 | hk1 | hk1
    · omega
    · subst hk1
      have := hm2 (by omega)
      omega
    · have := hm1 (by omega)
      omega

/-- The weekly part of `Blocked`, for a query time read in UTC: the devices of
a weekly entry at its most recent occurrence at or before `when`. -/
theorem weekly_blocked_last_occurrence (raw : weeklyList) (macs : List String) (when : Time)
    (hutc : when.loc = UTC) (hne : raw ≠ [])
    (hrange : ∀ e ∈ raw, 0 ≤ e.Time ∧ e.Time < 604800) :
    ∃ g ∈ raw, ∃ t w,
      (weeklyList.padded (weeklyList.resolvedSorted raw macs)).Blocked when =
        .ok (t, resolve macs g.Indexes) ∧
      t.ns = w * 1000000000 ∧ isOccurrence g.Time w ∧ w ≤ when.Unix ∧
      ∀ r, weeklyOccurrence raw r → r ≤ when.Unix → r ≤ w := by
  obtain ⟨rf, rl, hrf, hrl, hraw, hpe, _⟩ := finalized_weekly_inrange raw macs hne hrange
  obtain ⟨e, x, he, _, heo, _, hmax, _, hB, _⟩ := weekly_inrange_query raw macs when hne hrange
  obtain ⟨k0, hk0⟩ := weekStart_utc when hutc
  have hoff := ToWeeklyOffset_range when
  obtain ⟨g, hg, j, hj, hm⟩ := mem_padded_raw raw macs hne hrange e he
  refine ⟨g, hg, weeklyOffset.ToTime e.Time when, when.Unix - ToWeeklyOffset when + e.Time,
    by rw [hB, hm], ToTime_ns _ _, ⟨k0 + j, by omega⟩, by omega, ?_⟩
  rintro r ⟨y, hy, k, hk⟩ hle
  have hyr := hrange y hy
  have hprior : ({ rl.resolved macs with Time := rl.Time - 604800 } : weeklyEntry) ∈
      weeklyList.padded (weeklyList.resolvedSorted raw macs) := by rw [hpe]; simp
  have hself : y.resolved macs ∈ weeklyList.padded (weeklyList.resolvedSorted raw macs) := by
    rw [hpe]
    have := (mem_resolvedSorted raw macs _).mpr ⟨y, hy, rfl⟩
    simp [this]
  have hly := (hraw y hy).2
  have hl := hrange rl hrl
  have hm1 : rl.Time - 604800 ≤ ToWeeklyOffset when → rl.Time - 604800 ≤ e.Time :=
    hmax _ hprior
  have hm2 : y.Time ≤ ToWeeklyOffset when → y.Time ≤ e.Time :=
    hmax (y.resolved macs) hself
  rcases lt_trichotomy k k0 with hk1 | hk1 | hk1
  · have := hm1 (by omega)
    omega
  · subst hk1
    have := hm2 (by omega)
    omega
  · omega

/-- C8, counterexamples: an absolute entry one second before the zero time is
never selected by the scan, and `Until` keeps returning its instant, which is
not a weekly occurrence after `when`; an absolute entry whose second count
wraps in `time.Unix` is stored before the zero time and `Until` returns its
stored time in the same way; with two absolute entries at the instant 864010
the scan selects the first and `Until(864024)` is 864010, the time of the
second. -/
theorem C8_until_returns_absolute_instant_past_last :
    (ancientAbsolute.Finalize (fun _ => none)).toBool = true ∧
      untilOf ancientAbsolute (utc 864024) = .ok (utc (-62135596801)) ∧
      ¬ ((utc 864024).ns < (utc (-62135596801)).ns) ∧
      (wrappedAbsolute.Finalize (fun _ => none)).toBool = true ∧
      untilOf wrappedAbsolute (utc 864024) = .ok (utc 9223372036854775807) ∧
      ¬ ((utc 864024).ns < (utc 9223372036854775807).ns) ∧
      (tiedWithWeekly.Finalize (fun _ => none)).toBool = true ∧
      untilOf tiedWithWeekly (utc 864024) = .ok (utc 864010) ∧
      ¬ ((utc 864024).ns < (utc 864010).ns) := by
  decide

/-- C8, amended: for a query time read in UTC, raw weekly offsets in
`[0, 604800)`, and absolute entries with pairwise distinct instants, all later
than the zero time, none above `MaxInt64 - 62135596800` (where `time.Unix`
wraps) and none later than `when`, `Until` returns the earliest weekly
occurrence strictly after `when`; in `TestSimple`, 864024 gives 1468823, the
first rule's occurrence of the following week. -/
theorem C8_until_is_next_weekly_occurrence (tzdb : String → Option Location) (raw s : schedule)
    (when : Time) (hfin : raw.Finalize tzdb = .ok s) (hutc : when.loc = UTC)
    (hne : raw.Weekly ≠ [])
    (hrange : ∀ e ∈ raw.Weekly, 0 ≤ e.Time ∧ e.Time < 604800)
    (hdistinct : raw.Absolute.Pairwise (fun a b => a.UnixTime ≠ b.UnixTime))
    (hafter : ∀ a ∈ raw.Absolute, Time.zero.ns < a.UnixTime * 1000000000)
    (hrep : ∀ a ∈ raw.Absolute, a.UnixTime + 62135596800 ≤ 9223372036854775807)
    (hfresh : ∀ a ∈ raw.Absolute, a.Indexes = [] → a.time = Time.zero)
    (hpast : ∀ a ∈ raw.Absolute, a.UnixTime * 1000000000 ≤ when.ns) :
    (∃ u, Schedule.Until ⟨s⟩ when = .ok u ∧
      u.ns = u.Unix * 1000000000 ∧ weeklyOccurrence raw.Weekly u.Unix ∧ when.ns < u.ns ∧
      ∀ r, weeklyOccurrence raw.Weekly r → when.Unix < r → u.Unix ≤ r) ∧
    untilOf simple (utc 864024) = .ok (utc 1468823) := by
  refine ⟨?_, by decide⟩
  obtain ⟨tz1, _, _, _, _, hsa, hsw, _⟩ := schedule_Finalize_ok tzdb raw s hfin
  obtain ⟨u0, hu0, hz⟩ :=
    abs_until_zero_past_last raw.Absolute raw.MACs tz1 when hdistinct hpast hafter hrep hfresh
  obtain ⟨u, hu, h1, h2, h3, h4⟩ :=
    weekly_until_next_occurrence raw.Weekly raw.MACs when hutc hne hrange
  refine ⟨u, ?_, h1, h2, h3, h4⟩
  unfold Schedule.Until
  simp only [hsa, hsw, hu0, hz, hu]
  rfl

/-- Witness of C8 on the schedule of `TestSimple`, asked at second 864024. -/
theorem C8_until_is_next_weekly_occurrence_witness :
    ∃ u, Schedule.Until
        ⟨match simple.Finalize (fun _ => none) with | .ok s => s | .error _ => simple⟩
        (utc 864024) = .ok u ∧
      u.ns = u.Unix * 1000000000 ∧ weeklyOccurrence simple.Weekly u.Unix ∧
      (utc 864024).ns < u.ns ∧
      ∀ r, weeklyOccurrence simple.Weekly r → (utc 864024).Unix < r → u.Unix ≤ r :=
  (C8_until_is_next_weekly_occurrence (fun _ => none) simple _ (utc 864024)
    (by decide) (by decide) (by decide) (by decide) (by decide) (by decide) (by decide)
    (by decide) (by decide)).1

/-- C6, counterexamples.  An absolute entry one second before the zero time is
never selected: asked at its own instant, `Blocked` returns the empty list,
neither its devices nor those of a weekly entry.  An absolute entry with an
empty index list keeps the zero time and is never selected: at 864016, after
the last absolute instant 864015 and with the last weekly occurrence a week
back, `Blocked` still returns the devices of the entry at 864010.  With two
absolute entries at the instant 864010 the first stays definitive: at 864023,
the instant of a weekly occurrence, `Blocked` returns the first entry's
devices.  An absolute entry whose second count wraps in `time.Unix` is stored
before the zero time and is never selected either: asked at
`time.Unix(MaxInt64, 0)`, the instant of the last entry of `wrappedAbsolute`,
`Blocked` returns the empty list. -/
theorem C6_blocked_past_last_absolute_counterexamples :
    blockedOf ancientAbsolute (utc (-62135596801)) = .ok [] ∧
      blockedOf wrappedAbsolute (utc 9223372036854775807) = .ok [] ∧
      blockedOf unblockAbsolute (utc 864016) =
        .ok ["33:44:55:66:aa:BB", "22:33:44:55:66:aa"] ∧
      blockedOf tiedWithWeekly (utc 864023) =
        .ok ["33:44:55:66:aa:BB", "22:33:44:55:66:aa"] ∧
      blockedOf simple (utc 864023) = .ok ["11:22:33:44:55:66"] := by
  decide

/-- C6, amended: for a query time read in UTC at or after the last absolute
instant, raw weekly offsets in `[0, 604800)`, and absolute entries with
non-empty index lists and pairwise distinct instants later than the zero time
and not above `MaxInt64 - 62135596800` (where `time.Unix` wraps): with `w` the
most recent weekly occurrence at or before `when`, `Blocked` returns the
devices of the last absolute entry if `w` is earlier than its instant, and
otherwise the devices of a weekly entry occurring at `w`. -/
theorem C6_blocked_past_last_absolute (tzdb : String → Option Location) (raw s : schedule)
    (when : Time) (hfin : raw.Finalize tzdb = .ok s) (hutc : when.loc = UTC)
    (hane : raw.Absolute ≠ []) (hne : raw.Weekly ≠ [])
    (hrange : ∀ e ∈ raw.Weekly, 0 ≤ e.Time ∧ e.Time < 604800)
    (hdistinct : raw.Absolute.Pairwise (fun a b => a.UnixTime ≠ b.UnixTime))
    (hafter : ∀ a ∈ raw.Absolute, Time.zero.ns < a.UnixTime * 1000000000)
    (hrep : ∀ a ∈ raw.Absolute, a.UnixTime + 62135596800 ≤ 9223372036854775807)
    (hnonempty : ∀ a ∈ raw.Absolute, a.Indexes ≠ [])
    (hpast : ∀ a ∈ raw.Absolute, a.UnixTime * 1000000000 ≤ when.ns) :
    ∃ a ∈ raw.Absolute, ∃ g ∈ raw.Weekly, ∃ w : Int,
      (∀ b ∈ raw.Absolute, b.UnixTime ≤ a.UnixTime) ∧
      isOccurrence g.Time w ∧ w ≤ when.Unix ∧
      (∀ r, weeklyOccurrence raw.Weekly r → r ≤ when.Unix → r ≤ w) ∧
      (w < a.UnixTime → Schedule.Blocked ⟨s⟩ when = .ok (resolve raw.MACs a.Indexes)) ∧
      (a.UnixTime ≤ w → Schedule.Blocked ⟨s⟩ when = .ok (resolve raw.MACs g.Indexes)) := by
  obtain ⟨tz1, _, _, _, _, hsa, hsw, _⟩ := schedule_Finalize_ok tzdb raw s hfin
  obtain ⟨a, ha, ta, hamax, hta, hAB⟩ :=
    abs_blocked_past_last raw.Absolute raw.MACs tz1 when hane hdistinct hafter hrep hnonempty
      hpast
  obtain ⟨g, hg, t, w, hWB, ht, hocc, hle, hmax⟩ :=
    weekly_blocked_last_occurrence raw.Weekly raw.MACs when hutc hne hrange
  refine ⟨a, ha, g, hg, w, hamax, hocc, hle, hmax, ?_, ?_⟩
  · intro hlt
    have hb : t.Before ta = true := by
      unfold Time.Before
      rw [decide_eq_true_eq]
      omega
    unfold Schedule.Blocked
    simp only [hsa, hsw, hAB, hWB, hb]
    rfl
  · intro hge
    have hb : t.Before ta = false := by
      unfold Time.Before
      rw [decide_eq_false_iff_not]
      omega
    unfold Schedule.Blocked
    simp only [hsa, hsw, hAB, hWB, hb]
    rfl

/-- Witness of C6 on the schedule of `TestSimple`, asked at second 864023. -/
theorem C6_blocked_past_last_absolute_witness :
    ∃ a ∈ simple.Absolute, ∃ g ∈ simple.Weekly, ∃ w : Int,
      (∀ b ∈ simple.Absolute, b.UnixTime ≤ a.UnixTime) ∧
      isOccurrence g.Time w ∧ w ≤ (utc 864023).Unix ∧
      (∀ r, weeklyOccurrence simple.Weekly r → r ≤ (utc 864023).Unix → r ≤ w) ∧
      (w < a.UnixTime →
        Schedule.Blocked
          ⟨match simple.Finalize (fun _ => none) with | .ok s => s | .error _ => simple⟩
          (utc 864023) = .ok (resolve simple.MACs a.Indexes)) ∧
      (a.UnixTime ≤ w →
        Schedule.Blocked
          ⟨match simple.Finalize (fun _ => none) with | .ok s => s | .error _ => simple⟩
          (utc 864023) = .ok (resolve simple.MACs g.Indexes)) :=
  C6_blocked_past_last_absolute (fun _ => none) simple _ (utc 864023)
    (by decide) (by decide) (by decide) (by decide) (by decide) (by decide) (by decide)
    (by decide) (by decide) (by decide)

/-- C5, counterexamples: with absolute entries at 864010 and 864100 and a
weekly occurrence at 864023, `Until(864015)` is 864100 although the
rule-transition instant 864023 lies strictly between.  With a later absolute
entry whose second count wraps in `time.Unix`, `Until(864015)` is the wrapped
time, which is not the zero time and lies before the query. -/
theorem C5_until_skips_weekly_occurrence_while_definitive :
    (gapAbsolute.Finalize (fun _ => none)).toBool = true ∧
      untilOf gapAbsolute (utc 864015) = .ok (utc 864100) ∧
      ruleTransition gapAbsolute 864023 ∧
      (utc 864015).Unix < 864023 ∧ 864023 < (utc 864100).Unix ∧
      (wrappedAbsolute.Finalize (fun _ => none)).toBool = true ∧
      untilOf wrappedAbsolute (utc 864015) = .ok (utc 9223372036854775807) ∧
      (utc 9223372036854775807).IsZero = false ∧
      (utc 9223372036854775807).ns < (utc 864015).ns := by
  refine ⟨by decide, by decide, ?_, by decide, by decide, by decide, by decide, by decide,
    by decide⟩
  right
  exact ⟨{ Time := 23, Indexes := [0] }, by decide, 1, by decide⟩

/-- C5, amended: for a query time read in UTC, raw weekly offsets in
`[0, 604800)`, and absolute entries with non-empty index lists and pairwise
distinct instants later than the zero time and not above
`MaxInt64 - 62135596800` (where `time.Unix` wraps), `Until` returns.  While an
absolute entry is in effect and a later one exists, the result is the smallest
absolute instant later than `when`, whatever weekly occurrences lie before it.
When no absolute instant is later than `when`, the result is the smallest
weekly occurrence later than `when`, and the zero time if there is no weekly
entry. -/
theorem C5_until_next_transition (tzdb : String → Option Location) (raw s : schedule)
    (when : Time) (hfin : raw.Finalize tzdb = .ok s) (hutc : when.loc = UTC)
    (hrange : ∀ e ∈ raw.Weekly, 0 ≤ e.Time ∧ e.Time < 604800)
    (hdistinct : raw.Absolute.Pairwise (fun a b => a.UnixTime ≠ b.UnixTime))
    (hafter : ∀ a ∈ raw.Absolute, Time.zero.ns < a.UnixTime * 1000000000)
    (hrep : ∀ a ∈ raw.Absolute, a.UnixTime + 62135596800 ≤ 9223372036854775807)
    (hnonempty : ∀ a ∈ raw.Absolute, a.Indexes ≠ []) :
    ∃ u, Schedule.Until ⟨s⟩ when = .ok u ∧
      (((∃ a ∈ raw.Absolute, a.UnixTime * 1000000000 ≤ when.ns) ∧
          (∃ a ∈ raw.Absolute, when.ns < a.UnixTime * 1000000000)) →
        ∃ a ∈ raw.Absolute, u.ns = a.UnixTime * 1000000000 ∧ when.ns < u.ns ∧
          ∀ b ∈ raw.Absolute, when.ns < b.UnixTime * 1000000000 → a.UnixTime ≤ b.UnixTime) ∧
      ((∀ a ∈ raw.Absolute, a.UnixTime * 1000000000 ≤ when.ns) → raw.Weekly ≠ [] →
        u.ns = u.Unix * 1000000000 ∧ weeklyOccurrence raw.Weekly u.Unix ∧ when.ns < u.ns ∧
          ∀ r, weeklyOccurrence raw.Weekly r → when.Unix < r → u.Unix ≤ r) ∧
      ((∀ a ∈ raw.Absolute, a.UnixTime * 1000000000 ≤ when.ns) → raw.Weekly = [] →
        u = Time.zero) := by
  obtain ⟨tz1, _, _, _, _, hsa, hsw, _⟩ := schedule_Finalize_ok tzdb raw s hfin
  by_cases hlater : ∃ a ∈ raw.Absolute, when.ns < a.UnixTime * 1000000000
  · obtain ⟨a, ha, u, hu, hua, hwu, hnz, hmin⟩ :=
      abs_until_next raw.Absolute raw.MACs tz1 when hdistinct hafter hrep hnonempty hlater
    have hcontra : ¬ (∀ a ∈ raw.Absolute, a.UnixTime * 1000000000 ≤ when.ns) := by
      intro hall
      obtain ⟨c, hc, hcl⟩ := hlater
      have := hall c hc
      omega
    refine ⟨u, ?_, fun _ => ⟨a, ha, hua, hwu, hmin⟩, fun h => absurd h hcontra,
      fun h => absurd h hcontra⟩
    unfold Schedule.Until
    simp only [hsa, hu, hnz]
    rfl
  · have hpast : ∀ a ∈ raw.Absolute, a.UnixTime * 1000000000 ≤ when.ns := by
      intro a ha
      by_contra hc
      exact hlater ⟨a, ha, by omega⟩
    obtain ⟨u0, hu0, hz⟩ := abs_until_zero_past_last raw.Absolute raw.MACs tz1 when
      hdistinct hpast hafter hrep (fun a ha h => absurd h (hnonempty a ha))
    by_cases hne : raw.Weekly = []
    · refine ⟨Time.zero, ?_, fun h => absurd h.2 hlater, fun _ h => absurd hne h,
        fun _ _ => rfl⟩
      have hW : s.Weekly = [] := by rw [hsw, hne]; rfl
      unfold Schedule.Until
      simp only [hsa, hW, hu0, hz]
      rfl
    · obtain ⟨u, hu, h1, h2, h3, h4⟩ :=
        weekly_until_next_occurrence raw.Weekly raw.MACs when hutc hne hrange
      refine ⟨u, ?_, fun h => absurd h.2 hlater, fun _ _ => ⟨h1, h2, h3, h4⟩,
        fun _ h => absurd h hne⟩
      unfold Schedule.Until
      simp only [hsa, hsw, hu0, hz, hu]
      rfl

/-- Witness of C5 on the schedule `gapAbsolute`, asked at second 864015. -/
theorem C5_until_next_transition_witness :
    ∃ u, Schedule.Until
        ⟨match gapAbsolute.Finalize (fun _ => none) with | .ok s => s | .error _ => gapAbsolute⟩
        (utc 864015) = .ok u ∧
      (((∃ a ∈ gapAbsolute.Absolute, a.UnixTime * 1000000000 ≤ (utc 864015).ns) ∧
          (∃ a ∈ gapAbsolute.Absolute, (utc 864015).ns < a.UnixTime * 1000000000)) →
        ∃ a ∈ gapAbsolute.Absolute, u.ns = a.UnixTime * 1000000000 ∧ (utc 864015).ns < u.ns ∧
          ∀ b ∈ gapAbsolute.Absolute, (utc 864015).ns < b.UnixTime * 1000000000 →
            a.UnixTime ≤ b.UnixTime) ∧
      ((∀ a ∈ gapAbsolute.Absolute, a.UnixTime * 1000000000 ≤ (utc 864015).ns) →
        gapAbsolute.Weekly ≠ [] →
        u.ns = u.Unix * 1000000000 ∧ weeklyOccurrence gapAbsolute.Weekly u.Unix ∧
          (utc 864015).ns < u.ns ∧
          ∀ r, weeklyOccurrence gapAbsolute.Weekly r → (utc 864015).Unix < r → u.Unix ≤ r) ∧
      ((∀ a ∈ gapAbsolute.Absolute, a.UnixTime * 1000000000 ≤ (utc 864015).ns) →
        gapAbsolute.Weekly = [] → u = Time.zero) :=
  C5_until_next_transition (fun _ => none) gapAbsolute _ (utc 864015)
    (by decide) (by decide) (by decide) (by decide) (by decide) (by decide) (by decide)

/-- C11 (code defect): `weeklyList.findIndex` reads the weekly offset in the
location the query time carries, not in the schedule's zone.  For the UTC
schedule of `TestSimple`, the instant 864023 read in UTC has offset 23 and
selects position 1, while the same instant read one hour east of UTC has
offset 3623 and selects position 2; `Blocked` returns different device lists
for the two. -/
theorem C11_weekly_offset_read_in_query_location :
    (utc 864023).ns = (plusOneHour 864023).ns ∧
      (finalizedOf simple).tz = UTC ∧
      ToWeeklyOffset (utc 864023) = 23 ∧ ToWeeklyOffset (plusOneHour 864023) = 3623 ∧
      (finalizedOf simple).Weekly.findIndex (utc 864023) = 1 ∧
      (finalizedOf simple).Weekly.findIndex (plusOneHour 864023) = 2 ∧
      blockedOf simple (utc 864023) = .ok ["11:22:33:44:55:66"] ∧
      blockedOf simple (plusOneHour 864023) = .ok ["33:44:55:66:aa:BB"] := by
  decide

/-- C12: on a schedule whose absolute and weekly lists are both empty, as in a
freshly created `Schedule`, `Blocked` returns the empty device list and `Until`
the zero time, at every instant. -/
theorem C12_empty_schedule (s : Schedule) (when : Time)
    (ha : s.raw.Absolute = []) (hw : s.raw.Weekly = []) :
    s.Blocked when = .ok [] ∧ s.Until when = .ok Time.zero := by
  unfold Schedule.Blocked Schedule.Until
  rw [ha, hw]
  exact ⟨rfl, rfl⟩

/-- Witness of C12: the schedule `New()`, asked at second 864000. -/
theorem C12_empty_schedule_witness :
    New.Blocked (utc 864000) = .ok [] ∧ New.Until (utc 864000) = .ok Time.zero :=
  C12_empty_schedule New (utc 864000) rfl rfl

/-- C18 (code defect): `absEntry.Finalize` assigns `time` inside the loop over
the indexes, so an entry with an empty index list is finalized successfully
with its time still the zero value, whatever its `UnixTime`; the scan never
selects it.  In `unblockAbsolute` the entry at 864015 that unblocks every
device is ignored: at 864015 the scan still selects position 0 and `Blocked`
still returns the devices of the entry at 864010. -/
theorem C18_empty_index_list_leaves_time_zero (macs : List String) (tz : Location) (U : Int) :
    absEntry.Finalize { Indexes := [], UnixTime := U } macs tz =
        .ok { Indexes := [], UnixTime := U, macs := [], time := Time.zero } ∧
      (finalizedOf unblockAbsolute).Absolute.findIndex (utc 864015) = 0 ∧
      blockedOf unblockAbsolute (utc 864015) =
        .ok ["33:44:55:66:aa:BB", "22:33:44:55:66:aa"] := by
  refine ⟨rfl, by decide, by decide⟩

/-- C20: for a whole-second instant, the weekly offset lies in `[0, 604800)`
and converting it back relative to the same instant gives the instant again,
in its location; this holds in UTC and in every fixed-offset location. -/
theorem C20_weekly_offset_round_trip (t : Time) (hwhole : t.ns % 1000000000 = 0) :
    0 ≤ ToWeeklyOffset t ∧ ToWeeklyOffset t < 604800 ∧
      weeklyOffset.ToTime (ToWeeklyOffset t) t = t := by
  refine ⟨(ToWeeklyOffset_range t).1, (ToWeeklyOffset_range t).2, ?_⟩
  have hns := ToTime_ns (ToWeeklyOffset t) t
  have hloc : (weeklyOffset.ToTime (ToWeeklyOffset t) t).loc = t.loc := rfl
  have hns2 : (weeklyOffset.ToTime (ToWeeklyOffset t) t).ns = t.ns := by
    rw [hns]
    unfold Time.Unix
    omega
  cases t with
  | mk n l =>
    cases h : weeklyOffset.ToTime (ToWeeklyOffset ⟨n, l⟩) ⟨n, l⟩ with
    | mk n1 l1 =>
      rw [h] at hloc hns2
      simp only at hloc hns2
      rw [hloc, hns2]

/-- Witness of C20 at second 864023 in UTC (Sunday 00:00:23). -/
theorem C20_weekly_offset_round_trip_witness :
    0 ≤ ToWeeklyOffset (utc 864023) ∧ ToWeeklyOffset (utc 864023) < 604800 ∧
      weeklyOffset.ToTime (ToWeeklyOffset (utc 864023)) (utc 864023) = utc 864023 :=
  C20_weekly_offset_round_trip (utc 864023) (by decide)

theorem sliceAt_append_right_mem {α : Type} (A B : List α) (k : Int) (y : α)
    (h : (A.length : Int) ≤ k) (hy : sliceAt (A ++ B) k = .ok y) : y ∈ B := by
  obtain ⟨_, hget⟩ := (sliceAt_ok_iff _ _ _).mp hy
  rw [List.get?_eq_getElem?, List.getElem?_append_right (by omega)] at hget
  exact List.getElem?_mem hget

theorem oneWeek_eq : oneWeek = 604800 := by
  unfold oneWeek
  norm_num

/-- C16: on the weekly list finalized from a non-empty raw list with offsets in
`[0, 604800)`, at every instant the scan returns a position `idx` with
`idx + 1` inside the list, `list[idx].Time` at or below the weekly offset of the
instant and `list[idx+1].Time` above it; every later entry is above the offset,
so `idx` is the last entry at or below it and never the appended next-week
copy.  The location of the instant is arbitrary. -/
theorem C16_weekly_findIndex_has_successor (raw L : weeklyList) (macs : List String)
    (when : Time) (hfin : raw.Finalize macs = .ok L) (hne : raw ≠ [])
    (hrange : ∀ e ∈ raw, 0 ≤ e.Time ∧ e.Time < 604800) :
    0 ≤ L.findIndex when ∧ L.findIndex when + 1 < (L.length : Int) ∧
      ∃ e x, sliceAt L (L.findIndex when) = .ok e ∧
        sliceAt L (L.findIndex when + 1) = .ok x ∧
        e.Time ≤ ToWeeklyOffset when ∧ ToWeeklyOffset when < x.Time ∧
        ∀ (k : Int) (y : weeklyEntry), L.findIndex when < k → sliceAt L k = .ok y →
          ToWeeklyOffset when < y.Time := by
  obtain ⟨_, hL⟩ := (weeklyList_Finalize_ok raw L macs).mp hfin
  obtain ⟨rf, rl, hrf, hrl, _, hpe, _⟩ := finalized_weekly_inrange raw macs hne hrange
  rw [← hL] at hpe
  have hoff := ToWeeklyOffset_range when
  have h1 := hrange rf hrf
  have h2 := hrange rl hrl
  rcases weekly_findIndexLoop_spec (ToWeeklyOffset when) L 0 0 with
    ⟨_, hall⟩ | ⟨pre, e, post, hsplit, hidx, he, hpost⟩
  · exfalso
    have hprior : ({ rl.resolved macs with Time := rl.Time - 604800 } : weeklyEntry) ∈ L := by
      rw [hpe]; simp
    have := hall _ hprior
    have ht : ({ rl.resolved macs with Time := rl.Time - 604800 } : weeklyEntry).Time
        = rl.Time - 604800 := rfl
    rw [ht] at this
    omega
  · have hfi : L.findIndex when = (pre.length : Int) := by
      show weeklyList.findIndexLoop (ToWeeklyOffset when) L 0 0 = _
      rw [hidx]; omega
    cases post with
    | nil =>
      exfalso
      rw [hpe] at hsplit
      have h6 := List.append_inj_right' hsplit rfl
      injection h6 with h6
      have ht : e.Time = rf.Time + 604800 := by rw [← h6]
      omega
    | cons x post1 =>
      rw [hfi]
      refine ⟨by omega, ?_, e, x, ?_, ?_, he, hpost x (List.mem_cons_self _ _), ?_⟩
      · rw [hsplit]
        simp only [List.length_append, List.length_cons]
        push_cast
        omega
      · rw [hsplit, sliceAt_append_cons]
      · have h := sliceAt_append_cons (pre ++ [e]) x post1
        simp only [List.length_append, List.length_singleton, List.append_assoc,
          List.singleton_append] at h
        push_cast at h
        rw [hsplit, h]
      · intro k y hk hy
        have hsplit2 : L = (pre ++ [e]) ++ (x :: post1) := by rw [hsplit]; simp
        rw [hsplit2] at hy
        exact hpost y (sliceAt_append_right_mem _ _ k y (by simp; omega) hy)

/-- Witness of C16 on the weekly list of `TestSimple`, asked at second 864024. -/
theorem C16_weekly_findIndex_has_successor_witness :
    0 ≤ (finalizedOf simple).Weekly.findIndex (utc 864024) ∧
      (finalizedOf simple).Weekly.findIndex (utc 864024) + 1
        < ((finalizedOf simple).Weekly.length : Int) ∧
      ∃ e x, sliceAt (finalizedOf simple).Weekly
          ((finalizedOf simple).Weekly.findIndex (utc 864024)) = .ok e ∧
        sliceAt (finalizedOf simple).Weekly
          ((finalizedOf simple).Weekly.findIndex (utc 864024) + 1) = .ok x ∧
        e.Time ≤ ToWeeklyOffset (utc 864024) ∧ ToWeeklyOffset (utc 864024) < x.Time ∧
        ∀ (k : Int) (y : weeklyEntry),
          (finalizedOf simple).Weekly.findIndex (utc 864024) < k →
          sliceAt (finalizedOf simple).Weekly k = .ok y →
          ToWeeklyOffset (utc 864024) < y.Time :=
  C16_weekly_findIndex_has_successor simple.Weekly (finalizedOf simple).Weekly simple.MACs
    (utc 864024) (by decide) (by decide) (by decide)

/-- C17: a successful `weeklyList.Finalize` of `n` raw entries gives the empty
list when `n = 0`, and otherwise a list of length `n + 2`: the raw entries,
resolved and sorted ascending by offset, between a copy of the last of them
with `Time - 604800` and a copy of the first of them with `Time + 604800`, both
copies with the devices of their originals.  The two sums are Go's 64-bit
`int` operations; they are the exact integers unless they leave the 64-bit
range. -/
theorem C17_weekly_finalize_shape (raw L : weeklyList) (macs : List String)
    (hfin : raw.Finalize macs = .ok L) :
    (raw = [] → L = []) ∧
    (raw ≠ [] → ∃ S first last,
      S.Perm (raw.map (weeklyEntry.resolved macs)) ∧
      S.Pairwise (fun a b => a.Time ≤ b.Time) ∧
      S.head? = some first ∧ S.getLast? = some last ∧
      L = ({ last with Time := wrapInt64 (last.Time - 604800) } :: S) ++
        [{ first with Time := wrapInt64 (first.Time + 604800) }] ∧
      L.length = raw.length + 2 ∧
      (-9223372036854775808 + 604800 ≤ last.Time ∧ last.Time ≤ 9223372036854775807 →
        wrapInt64 (last.Time - 604800) = last.Time - 604800) ∧
      (-9223372036854775808 ≤ first.Time ∧ first.Time ≤ 9223372036854775807 - 604800 →
        wrapInt64 (first.Time + 604800) = first.Time + 604800)) := by
  obtain ⟨_, hL⟩ := (weeklyList_Finalize_ok raw L macs).mp hfin
  constructor
  · intro h
    rw [hL, h]
    rfl
  · intro hne
    have hS := resolvedSorted_ne_nil raw macs hne
    obtain ⟨first, last, _, _, hhead, hlast, hp⟩ := padded_eq _ hS
    have hperm : (weeklyList.resolvedSorted raw macs).Perm (raw.map (weeklyEntry.resolved macs)) :=
      (sortSlice_perm _ raw).map _
    rw [oneWeek_eq] at hp
    refine ⟨_, first, last, hperm, resolvedSorted_sorted raw macs, hhead, hlast,
      by rw [hL, hp], ?_, ?_, ?_⟩
    · rw [hL, hp]
      have := hperm.length_eq
      simp only [List.length_map] at this
      simp only [List.length_append, List.length_cons, List.length_singleton, List.length_nil]
      omega
    · intro h
      exact wrapInt64_id _ (by omega) (by omega)
    · intro h
      exact wrapInt64_id _ (by omega) (by omega)

/-- Witness of C17 on the weekly list of `TestSimple`. -/
theorem C17_weekly_finalize_shape_witness :
    (finalizedOf simple).Weekly.length = simple.Weekly.length + 2 := by
  obtain ⟨S, first, last, _, _, _, _, _, hlen, _⟩ :=
    (C17_weekly_finalize_shape simple.Weekly (finalizedOf simple).Weekly simple.MACs
      (by decide)).2 (by decide)
  exact hlen

/-- C14, counterexamples: an absolute entry one second before the zero time
is never selected, so the scan returns -1 at 864015 although the entry's
instant is not after it; an entry with an empty index list keeps the zero time,
so at 864016 the scan returns position 0 (instant 864010) although the entry
at 864015 is the latest one not after 864016; an entry whose second count
wraps in `time.Unix` is stored before the zero time, so on the list with the
entries 864010 and `MaxInt64` the scan returns -1 at `time.Unix(MaxInt64, 0)`,
the instant of the second entry. -/
theorem C14_findIndex_misses_entries :
    (ancientAbsolute.Finalize (fun _ => none)).toBool = true ∧
      (finalizedOf ancientAbsolute).Absolute.findIndex (utc 864015) = -1 ∧
      (unblockAbsolute.Finalize (fun _ => none)).toBool = true ∧
      (finalizedOf unblockAbsolute).Absolute.findIndex (utc 864016) = 0 ∧
      ((finalizedOf unblockAbsolute).Absolute.map (fun e => e.UnixTime)) = [864010, 864015] ∧
      (wrappedAbsolute.Finalize (fun _ => none)).toBool = true ∧
      (finalizedOf wrappedAbsolute).Absolute.findIndex (utc 9223372036854775807) = -1 := by
  decide

/-- C14, amended: on the absolute list finalized from entries with non-empty
index lists and instants later than the zero time and not above
`MaxInt64 - 62135596800` (where `time.Unix` wraps), the scan returns -1 exactly
when every entry's instant is after `when` (in particular on the empty list),
and otherwise the position of an entry whose instant is the greatest among the
instants not after `when`. -/
theorem C14_abs_findIndex_latest (raw L : absList) (macs : List String) (tz : Location)
    (when : Time) (hfin : absList.Finalize raw macs tz = .ok L)
    (hnonempty : ∀ a ∈ raw, a.Indexes ≠ [])
    (hafter : ∀ a ∈ raw, Time.zero.ns < a.UnixTime * 1000000000)
    (hrep : ∀ a ∈ raw, a.UnixTime + 62135596800 ≤ 9223372036854775807) :
    (L.findIndex when = -1 ↔ ∀ a ∈ raw, when.ns < a.UnixTime * 1000000000) ∧
    (L.findIndex when ≠ -1 →
      ∃ e, sliceAt L (L.findIndex when) = .ok e ∧ e.UnixTime * 1000000000 ≤ when.ns ∧
        ∀ a ∈ raw, a.UnixTime * 1000000000 ≤ when.ns → a.UnixTime ≤ e.UnixTime) := by
  obtain ⟨_, hL⟩ := (absList_Finalize_ok raw L macs tz).mp hfin
  have hlive := finalized_abs_live raw macs tz hnonempty hafter hrep
  have hmem : ∀ b ∈ raw, b.resolved macs tz ∈ absList.finalized raw macs tz :=
    fun b hb => (mem_absList_finalized _ _ _ _).mpr ⟨b, hb, rfl⟩
  rw [← hL] at hlive hmem
  have htime : ∀ b ∈ raw, (b.resolved macs tz).time.ns = b.UnixTime * 1000000000 :=
    fun b hb => (hlive _ (hmem b hb)).1
  rcases abs_blocked_index L when with
    ⟨hfi, _, hnone⟩ | ⟨pre, e, post, hsplit, hfi, hsl, _, _, hew, hpre, hpost⟩
  · refine ⟨⟨fun _ a ha => ?_, fun _ => hfi⟩, fun h => absurd hfi h⟩
    have h1 := hnone _ (hmem a ha)
    have h2 := htime a ha
    have h3 := hafter a ha
    omega
  · have he : e ∈ L := by rw [hsplit]; simp
    obtain ⟨het, r, hr, hU, _⟩ := hlive e he
    refine ⟨⟨fun h => by omega, fun h => ?_⟩, fun _ => ⟨e, hsl, by omega, ?_⟩⟩
    · exfalso
      have := h r hr
      omega
    · intro a ha haw
      have haL := hmem a ha
      have hat := htime a ha
      rw [hsplit] at haL
      rcases List.mem_append.mp haL with h | h
      · have := hpre _ h
        omega
      · rcases List.mem_cons.mp h with h | h
        · rw [h] at hat
          omega
        · have := hpost _ h
          omega

/-- Witness of C14 on the absolute list of `TestSimple`, asked at second
864011. -/
theorem C14_abs_findIndex_latest_witness :
    ((finalizedOf simple).Absolute.findIndex (utc 864011) = -1 ↔
        ∀ a ∈ simple.Absolute, (utc 864011).ns < a.UnixTime * 1000000000) ∧
    ((finalizedOf simple).Absolute.findIndex (utc 864011) ≠ -1 →
      ∃ e, sliceAt (finalizedOf simple).Absolute
          ((finalizedOf simple).Absolute.findIndex (utc 864011)) = .ok e ∧
        e.UnixTime * 1000000000 ≤ (utc 864011).ns ∧
        ∀ a ∈ simple.Absolute, a.UnixTime * 1000000000 ≤ (utc 864011).ns →
          a.UnixTime ≤ e.UnixTime) :=
  C14_abs_findIndex_latest simple.Absolute (finalizedOf simple).Absolute simple.MACs UTC
    (utc 864011) (by decide) (by decide) (by decide) (by decide)

/-- C15, counterexample: with two absolute entries at the instant 10,
`absList.Blocked(20)` selects the first and reports `definitive = true`, the
selected entry not being the last of the list, although no entry has an instant
later than 10. -/
theorem C15_definitive_on_equal_instants :
    (tiedAbsolute.Finalize (fun _ => none)).toBool = true ∧
      absBlockedOf tiedAbsolute (utc 20) = .ok (utc 10, ["A"], true) ∧
      ∀ e ∈ tiedAbsolute.Absolute, ¬ (10 < e.UnixTime) := by
  decide

/-- C15, amended: `absList.Blocked` returns at every instant, and when the
instants of the absolute entries are pairwise distinct it reports
`definitive = true` if and only if the scan selects an entry and the list
contains an entry with a strictly later instant. -/
theorem C15_definitive_iff_later_entry (raw L : absList) (macs : List String) (tz : Location)
    (when : Time) (hfin : absList.Finalize raw macs tz = .ok L)
    (hdistinct : raw.Pairwise (fun a b => a.UnixTime ≠ b.UnixTime)) :
    ∃ at_ blocked definitive, L.Blocked when = .ok (at_, blocked, definitive) ∧
      (definitive = true ↔
        L.findIndex when ≠ -1 ∧
          ∃ e, sliceAt L (L.findIndex when) = .ok e ∧ ∃ b ∈ raw, e.UnixTime < b.UnixTime) := by
  obtain ⟨_, hL⟩ := (absList_Finalize_ok raw L macs tz).mp hfin
  have hsorted := finalized_abs_sorted_strict raw macs tz hdistinct
  have hmem : ∀ b ∈ raw, b.resolved macs tz ∈ absList.finalized raw macs tz :=
    fun b hb => (mem_absList_finalized _ _ _ _).mpr ⟨b, hb, rfl⟩
  have hraw : ∀ x ∈ absList.finalized raw macs tz, ∃ r ∈ raw, x.UnixTime = r.UnixTime := by
    intro x hx
    obtain ⟨r, hr, hxr⟩ := (mem_absList_finalized _ _ _ _).mp hx
    exact ⟨r, hr, by rw [hxr]; rfl⟩
  rw [← hL] at hsorted hmem hraw
  rcases abs_blocked_index L when with
    ⟨hfi, hB, _⟩ | ⟨pre, e, post, hsplit, hfi, hsl, hB, _, _, _, _⟩
  · refine ⟨_, _, _, hB, ?_⟩
    constructor
    · intro h; cases h
    · rintro ⟨h, _⟩; exact absurd hfi h
  · refine ⟨_, _, _, hB, ?_⟩
    rw [hsplit] at hsorted
    obtain ⟨_, hs2, hs3⟩ := List.pairwise_append.mp hsorted
    obtain ⟨hs4, _⟩ := List.pairwise_cons.mp hs2
    rw [decide_eq_true_eq]
    constructor
    · intro hpost
      refine ⟨by omega, e, hsl, ?_⟩
      cases post with
      | nil => exact absurd rfl hpost
      | cons x rest =>
        obtain ⟨r, hr, hU⟩ := hraw x (by rw [hsplit]; simp)
        exact ⟨r, hr, by rw [← hU]; exact hs4 x (List.mem_cons_self _ _)⟩
    · rintro ⟨_, e1, hsl1, b, hb, hlt⟩
      rw [hsl] at hsl1
      injection hsl1 with hsl1
      subst hsl1
      intro hpost
      subst hpost
      have hbL := hmem b hb
      have hbU : (b.resolved macs tz).UnixTime = b.UnixTime := rfl
      rw [hsplit] at hbL
      rcases List.mem_append.mp hbL with h | h
      · have := hs3 _ h e (List.mem_singleton_self _)
        omega
      · rw [List.mem_singleton] at h
        rw [← h] at hlt
        omega

/-- Witness of C15 on the absolute list of `TestSimple`, asked at second
864011. -/
theorem C15_definitive_iff_later_entry_witness :
    ∃ at_ blocked definitive,
      (finalizedOf simple).Absolute.Blocked (utc 864011) = .ok (at_, blocked, definitive) ∧
      (definitive = true ↔
        (finalizedOf simple).Absolute.findIndex (utc 864011) ≠ -1 ∧
          ∃ e, sliceAt (finalizedOf simple).Absolute
              ((finalizedOf simple).Absolute.findIndex (utc 864011)) = .ok e ∧
            ∃ b ∈ simple.Absolute, e.UnixTime < b.UnixTime) :=
  C15_definitive_iff_later_entry simple.Absolute (finalizedOf simple).Absolute simple.MACs UTC
    (utc 864011) (by decide) (by decide)

/-- C13, counterexample: in `TestSimple` no rule instant lies strictly between
the seconds 864009 and 864010, yet `Blocked` differs at the two: the absolute
entry at 864010 takes effect at its own instant. -/
theorem C13_blocked_changes_at_rule_instant :
    (utc 864009).ns ≤ (utc 864010).ns ∧
      (∀ r : Int, ruleTransition simple r →
        ¬ ((utc 864009).ns < r * 1000000000 ∧ r * 1000000000 < (utc 864010).ns)) ∧
      blockedOf simple (utc 864009) = .ok ["22:33:44:55:66:aa"] ∧
      blockedOf simple (utc 864010) = .ok ["33:44:55:66:aa:BB", "22:33:44:55:66:aa"] := by
  refine ⟨by decide, ?_, by decide, by decide⟩
  intro r _
  have h1 : (utc 864009).ns = 864009000000000 := rfl
  have h2 : (utc 864010).ns = 864010000000000 := rfl
  rw [h1, h2]
  omega

/-- C13, amended: for query times read in UTC and raw weekly offsets in
`[0, 604800)`, if `t1 ≤ t2` and no rule-transition instant `r` satisfies
`t1 < r ≤ t2`, then `Blocked(t1)` and `Blocked(t2)` are equal.  The second
counts of the absolute entries are `int64` values, and an entry with an empty
index list has the zero value in its `time` field, as the decoder leaves it. -/
theorem C13_blocked_constant_between_transitions (tzdb : String → Option Location)
    (raw s : schedule) (t1 t2 : Time)
    (hfin : raw.Finalize tzdb = .ok s) (hu1 : t1.loc = UTC) (hu2 : t2.loc = UTC)
    (hle : t1.ns ≤ t2.ns)
    (hrange : ∀ e ∈ raw.Weekly, 0 ≤ e.Time ∧ e.Time < 604800)
    (hint64 : ∀ a ∈ raw.Absolute,
      -9223372036854775808 ≤ a.UnixTime ∧ a.UnixTime ≤ 9223372036854775807)
    (hfresh : ∀ a ∈ raw.Absolute, a.Indexes = [] → a.time = Time.zero)
    (hno : ∀ r, ruleTransition raw r →
      ¬ (t1.ns < r * 1000000000 ∧ r * 1000000000 ≤ t2.ns)) :
    Schedule.Blocked ⟨s⟩ t1 = Schedule.Blocked ⟨s⟩ t2 :=
  blocked_constant tzdb raw s t1 t2 hfin hu1 hu2 hle hrange hint64 hfresh
    (fun a ha => hno a.UnixTime (Or.inl ⟨a, ha, rfl⟩))
    (fun r hr => hno r (Or.inr hr))

/-- Witness of C13 on the schedule `unblockAbsolute`, which has an absolute
entry with an empty index list, between the seconds 864011 and 864014. -/
theorem C13_blocked_constant_between_transitions_witness :
    Schedule.Blocked ⟨finalizedOf unblockAbsolute⟩ (utc 864011) =
      Schedule.Blocked ⟨finalizedOf unblockAbsolute⟩ (utc 864014) :=
  C13_blocked_constant_between_transitions (fun _ => none) unblockAbsolute
    (finalizedOf unblockAbsolute)
    (utc 864011) (utc 864014) (by decide) (by decide) (by decide) (by decide) (by decide)
    (by decide) (by decide)
    (by
      have h1 : (utc 864011).ns = 864011000000000 := by decide
      have h2 : (utc 864014).ns = 864014000000000 := by decide
      rw [h1, h2]
      rintro r (⟨a, ha, hr⟩ | ⟨e, he, k, hk⟩)
      · have ha1 : a.UnixTime = 864010 ∨ a.UnixTime = 864015 := by
          simp only [unblockAbsolute, List.mem_cons, List.mem_singleton, List.not_mem_nil,
            or_false] at ha
          rcases ha with h | h <;> rw [h] <;> simp
        omega
      · have he1 : e.Time = 23 ∨ e.Time = 24 := by
          simp only [unblockAbsolute, simple, List.mem_cons, List.mem_singleton,
            List.not_mem_nil, or_false] at he
          rcases he with h | h <;> rw [h] <;> simp
        omega)

/-- C19, counterexample: the claim leaves the location of the query times
open.  Second 864024 read in UTC and the same instant read one hour east of UTC
have no instant between them, yet `Blocked` returns different device lists:
the weekly offset is read in the location the query time carries. -/
theorem C19_blocked_differs_with_query_location :
    (simple.Finalize (fun _ => none)).toBool = true ∧
      (finalizedOf simple).tz = UTC ∧
      (∀ e ∈ simple.Weekly, 0 ≤ e.Time ∧ e.Time < 604800) ∧
      (∀ a ∈ simple.Absolute, a.Indexes ≠ []) ∧
      simple.Absolute.Pairwise (fun a b => a.UnixTime ≠ b.UnixTime) ∧
      (utc 864024).ns % 1000000000 = 0 ∧
      (plusOneHour 864024).ns % 1000000000 = 0 ∧
      (utc 864024).ns ≤ (plusOneHour 864024).ns ∧
      (∀ r : Int, ¬ ((utc 864024).ns < r * 1000000000 ∧
        r * 1000000000 ≤ (plusOneHour 864024).ns)) ∧
      blockedOf simple (utc 864024) = .ok ["22:33:44:55:66:aa"] ∧
      blockedOf simple (plusOneHour 864024) = .ok ["33:44:55:66:aa:BB"] := by
  refine ⟨by decide, by decide, by decide, by decide, by decide, by decide, by decide,
    by decide, ?_, by decide, by decide⟩
  intro r
  have h1 : (utc 864024).ns = 864024000000000 := by decide
  have h2 : (plusOneHour 864024).ns = 864024000000000 := by decide
  rw [h1, h2]
  omega

/-- C19, amended: for query times both read in UTC, raw weekly offsets in
`[0, 604800)` and absolute entries with non-empty index lists, if `t1 ≤ t2` and
neither an absolute instant nor a weekly occurrence `r` satisfies
`t1 < r ≤ t2`, then `Blocked(t1)` and `Blocked(t2)` return the same device
list, also when a Sunday 00:00:00 lies between `t1` and `t2`.  The second
counts of the absolute entries are `int64` values; the instants need not be
whole seconds and the absolute instants need not be distinct. -/
theorem C19_blocked_constant_across_week_boundary (tzdb : String → Option Location)
    (raw s : schedule) (t1 t2 : Time)
    (hfin : raw.Finalize tzdb = .ok s) (hu1 : t1.loc = UTC) (hu2 : t2.loc = UTC)
    (hle : t1.ns ≤ t2.ns)
    (hrange : ∀ e ∈ raw.Weekly, 0 ≤ e.Time ∧ e.Time < 604800)
    (hint64 : ∀ a ∈ raw.Absolute,
      -9223372036854775808 ≤ a.UnixTime ∧ a.UnixTime ≤ 9223372036854775807)
    (hnonempty : ∀ a ∈ raw.Absolute, a.Indexes ≠ [])
    (hnoabs : ∀ a ∈ raw.Absolute,
      ¬ (t1.ns < a.UnixTime * 1000000000 ∧ a.UnixTime * 1000000000 ≤ t2.ns))
    (hnoweekly : ∀ e ∈ raw.Weekly, ∀ k : Int,
      ¬ (t1.ns < (259200 + k * 604800 + e.Time) * 1000000000 ∧
        (259200 + k * 604800 + e.Time) * 1000000000 ≤ t2.ns)) :
    ∃ r, Schedule.Blocked ⟨s⟩ t1 = .ok r ∧ Schedule.Blocked ⟨s⟩ t2 = .ok r := by
  have heq := blocked_constant tzdb raw s t1 t2 hfin hu1 hu2 hle hrange hint64
    (fun a ha h => absurd h (hnonempty a ha)) hnoabs
    (by
      rintro r ⟨e, he, k, hk⟩
      rw [hk]
      exact hnoweekly e he k)
  obtain ⟨r, hr, _⟩ := Schedule_Blocked_cases ⟨s⟩ t1
  exact ⟨r, hr, by rw [← heq]; exact hr⟩

/-- Witness of C19: the schedule `mondayWeekly` between Saturday 23:59:59
(second 863999) and Sunday 00:00:01 (second 864001). -/
theorem C19_blocked_constant_across_week_boundary_witness :
    ∃ r, Schedule.Blocked ⟨finalizedOf mondayWeekly⟩ (utc 863999) = .ok r ∧
      Schedule.Blocked ⟨finalizedOf mondayWeekly⟩ (utc 864001) = .ok r :=
  C19_blocked_constant_across_week_boundary (fun _ => none) mondayWeekly
    (finalizedOf mondayWeekly) (utc 863999) (utc 864001)
    (by decide) (by decide) (by decide) (by decide) (by decide) (by decide) (by decide)
    (by decide)
    (by
      have h1 : (utc 863999).ns = 863999000000000 := by decide
      have h2 : (utc 864001).ns = 864001000000000 := by decide
      rw [h1, h2]
      intro e he k
      have he1 : e.Time = 100000 := by
        simp only [mondayWeekly, List.mem_singleton] at he
        rw [he]
      omega)

end DeviceScheduler
